import Mathlib

/-!
Shallow embedding of `src/fft.c` (free FFT and convolution, C) and proofs
about it.

Modelling conventions:
* `double` is idealized as `ℝ` (the claims are stated over the idealized
  real-number embedding); trigonometric calls become `Real.cos` / `Real.sin`.
* `size_t` is idealized as `ℕ` with the LP64 value `SIZE_MAX = 2^64 - 1`;
  every overflow check the C source performs explicitly is embedded as the
  corresponding check on `ℕ`.
* a `double` array is a function `ℕ → ℝ`; an in-place store is
  `Function.update`; a `for` loop is `loopN`.
* `malloc`/`calloc` are modelled as always succeeding; the fallible
  functions return `Option`, and `none` corresponds to a `0` (failure)
  return status in C.  The explicit size-guard failure branches of the C
  source are kept exactly.
* the mutual recursion `transform → transform_bluestein →
  convolve_complex → transform` is embedded with an explicit recursion-depth
  budget (`fuel`); the exported entry points fix the budget at the value the
  call graph of the C source actually reaches, and fuel-insensitivity is
  proved below (claim C9).
-/

namespace Fft

/-- Value of `SIZE_MAX` (the `(size_t)-1` macro in the source) on an LP64
platform. -/
def SIZE_MAX : Nat := 2 ^ 64 - 1

/-- Value of `sizeof(double)`. -/
def sizeof_double : Nat := 8

/-- State of a pair of `double` arrays (`real[]`, `imag[]`). -/
abbrev St : Type := (Nat → ℝ) × (Nat → ℝ)

/-- Counting `for` loop: `loopN f n a` runs `a := f i a` for
`i = 0, 1, …, n-1` in this order. -/
def loopN {α : Sort _} (f : Nat → α → α) : Nat → α → α
  | 0, a => a
  | k + 1, a => f k (loopN f k a)

/-- Loop body of `reverse_bits`: `result = (result << 1) | (x & 1); x >>= 1`,
written arithmetically (`2 * result + x % 2` equals
`(result <<< 1) ||| (x &&& 1)` because the or-ed bit is the only low bit). -/
def reverse_bits_go (x result : Nat) : Nat → Nat
  | 0 => result
  | i + 1 => reverse_bits_go (x / 2) (2 * result + x % 2) i

/-- Embedding of `static size_t reverse_bits(size_t x, unsigned int n)`. -/
def reverse_bits (x : Nat) (n : Nat) : Nat :=
  reverse_bits_go x 0 n

/-- Embedding of the `levels` computation in `transform_radix2`:
`temp = n; while (temp > 1) { levels++; temp >>= 1; }`. -/
def floor_log2 (n : Nat) : Nat :=
  if n ≤ 1 then 0 else floor_log2 (n / 2) + 1
termination_by n
decreasing_by simp_wf; omega

/-- Loop of `transform_bluestein` that finds the convolution length:
`for (m = 1; m < target; m *= 2) { if (SIZE_MAX / 2 < m) return 0; }`.
The running value `m` is carried as `p + 1` so that the doubling strictly
increases it (in the source `m ≥ 1` always holds, since it starts at 1). -/
def find_m_go (target p : Nat) : Option Nat :=
  if p + 1 < target then
    if SIZE_MAX / 2 < p + 1 then none
    else find_m_go target (2 * p + 1)
  else some (p + 1)
termination_by target - p
decreasing_by simp_wf; omega

/-- The power-of-two convolution length `m ≥ target` chosen by
`transform_bluestein`, or `none` on the overflow guard. -/
def find_m (target : Nat) : Option Nat :=
  find_m_go target 0

/-- One conditional swap of the bit-reversal addressing permutation
(the body of the `for (i = 0; i < n; i++)` loop in `transform_radix2`). -/
def brSwap (levels : Nat) (i : Nat) (s : St) : St :=
  let j := reverse_bits i levels
  if j > i then
    (Function.update (Function.update s.1 i (s.1 j)) j (s.1 i),
     Function.update (Function.update s.2 i (s.2 j)) j (s.2 i))
  else s

/-- One conditional swap of the bit-reversal pass on a single array;
`brSwap` is this operation applied to both arrays at once. -/
def brSwap1 (levels : Nat) (i : Nat) (g : Nat → ℝ) : Nat → ℝ :=
  let j := reverse_bits i levels
  if j > i then Function.update (Function.update g i (g j)) j (g i) else g

/-- Innermost butterfly of the Cooley-Tukey loop in `transform_radix2`:
offset `t` inside the block that starts at `i`, so `j = i + t` and
`k = t * tablestep`. -/
def butterflyStep (ct st : Nat → ℝ) (halfsize tablestep i : Nat) (t : Nat)
    (s : St) : St :=
  let j := i + t
  let k := t * tablestep
  let tpre := s.1 (j + halfsize) * ct k + s.2 (j + halfsize) * st k
  let tpim := -(s.1 (j + halfsize)) * st k + s.2 (j + halfsize) * ct k
  (Function.update (Function.update s.1 (j + halfsize) (s.1 j - tpre)) j
      (s.1 j + tpre),
   Function.update (Function.update s.2 (j + halfsize) (s.2 j - tpim)) j
      (s.2 j + tpim))

/-- Inner loop `for (j = i, k = 0; j < i + halfsize; j++, k += tablestep)`. -/
def bfInner (ct st : Nat → ℝ) (halfsize tablestep i : Nat) (s : St) : St :=
  loopN (butterflyStep ct st halfsize tablestep i) halfsize s

/-- Middle loop `for (i = 0; i < n; i += size)`; block `b` starts at
`i = b * size`, and there are `n / size` blocks (`size` divides `n`). -/
def bfBlocks (ct st : Nat → ℝ) (n size : Nat) (s : St) : St :=
  loopN (fun b s => bfInner ct st (size / 2) (n / size) (b * size) s)
    (n / size) s

/-- Outer loop `for (size = 2; size <= n; size *= 2)`; stage `q` uses
`size = 2 ^ (q + 1)`, and for `n = 2 ^ levels` the loop runs `levels`
times (the final `break` only prevents the `size *= 2` overflow). -/
def bfStages (ct st : Nat → ℝ) (n levels : Nat) (s : St) : St :=
  loopN (fun q s => bfBlocks ct st n (2 ^ (q + 1)) s) levels s

/-- Embedding of `int transform_radix2(double real[], double imag[], size_t n)`. -/
noncomputable def transform_radix2 (re im : Nat → ℝ) (n : Nat) : Option St :=
  let levels := floor_log2 n
  if 2 ^ levels ≠ n then none
  else if SIZE_MAX / sizeof_double < n / 2 then none
  else
    let cos_table : Nat → ℝ := fun i => Real.cos (2 * Real.pi * i / n)
    let sin_table : Nat → ℝ := fun i => Real.sin (2 * Real.pi * i / n)
    let s1 := loopN (brSwap levels) n (re, im)
    some (bfStages cos_table sin_table n levels s1)

/-- Loop of `transform_bluestein` that fills one component of the `b`
sequence: `for (i = 1; i < n; i++) b[i] = b[m - i] = table[i];`
(iteration `q` handles index `i = q + 1`). -/
def bFill (table : Nat → ℝ) (m n : Nat) (b : Nat → ℝ) : Nat → ℝ :=
  loopN (fun q b =>
    Function.update (Function.update b (q + 1) (table (q + 1))) (m - (q + 1))
      (table (q + 1))) (n - 1) b

/-- The chirp cosine table of `transform_bluestein`:
`cos_table[i] = cos(M_PI * (size_t)((unsigned long long)i * i %
((unsigned long long)n * 2)) / n)`. Both the product `i * i` and the
modulus `n * 2` are computed in 64-bit unsigned arithmetic, so each wraps
modulo `2^64` (for `i ≥ 2^32` the product genuinely overflows; the final
`(size_t)` cast is value-preserving because the result is below the
modulus). -/
noncomputable def chirp_cos (n : Nat) : Nat → ℝ :=
  fun i =>
    Real.cos (Real.pi * ((i * i % 2 ^ 64 % (n * 2 % 2 ^ 64) : Nat) : ℝ) /
      (n : ℝ))

/-- The chirp sine table of `transform_bluestein`, with the same 64-bit
wraparound of `i * i` and `n * 2` as `chirp_cos`. -/
noncomputable def chirp_sin (n : Nat) : Nat → ℝ :=
  fun i =>
    Real.sin (Real.pi * ((i * i % 2 ^ 64 % (n * 2 % 2 ^ 64) : Nat) : ℝ) /
      (n : ℝ))

/-- The chirp cosine table as the Bluestein algorithm defines it (and as
the specification describes it): the reduction of `i * i` modulo `2n`
performed in exact integer arithmetic. This is a specification-side
definition, kept separate from `chirp_cos` (which embeds the source's
64-bit expression) so that the two can be compared. -/
noncomputable def chirp_cos_spec (n : Nat) : Nat → ℝ :=
  fun i => Real.cos (Real.pi * ((i * i % (n * 2) : Nat) : ℝ) / (n : ℝ))

/-- The chirp sine table as the Bluestein algorithm defines it, the
specification-side counterpart of `chirp_sin`. -/
noncomputable def chirp_sin_spec (n : Nat) : Nat → ℝ :=
  fun i => Real.sin (Real.pi * ((i * i % (n * 2) : Nat) : ℝ) / (n : ℝ))

/-- One component of the `b` sequence of `transform_bluestein`: a `calloc`
zero array, then `b[0] = table[0]`, then the symmetric fill loop. -/
noncomputable def bluestein_b (table : Nat → ℝ) (m n : Nat) : Nat → ℝ :=
  bFill table m n (Function.update (fun _ => 0) 0 (table 0))

mutual

/-- Embedding of `int transform(double real[], double imag[], size_t n)`,
with an explicit recursion-depth budget (exhausted budget gives `none`;
the exported `transform` below fixes the budget, and fuel-insensitivity is
proved as part of claim C9). -/
noncomputable def transformF : Nat → (Nat → ℝ) → (Nat → ℝ) → Nat → Option St
  | 0, _, _, _ => none
  | fuel + 1, re, im, n =>
    if n = 0 then some (re, im)
    else if n &&& (n - 1) = 0 then transform_radix2 re im n
    else transform_bluesteinF fuel re im n

/-- Embedding of
`int transform_bluestein(double real[], double imag[], size_t n)`. -/
noncomputable def transform_bluesteinF :
    Nat → (Nat → ℝ) → (Nat → ℝ) → Nat → Option St
  | fuel, re, im, n =>
    if n > (SIZE_MAX - 1) / 2 then none
    else
      match find_m (n * 2 + 1) with
      | none => none
      | some m =>
        if SIZE_MAX / sizeof_double < n ∨ SIZE_MAX / sizeof_double < m then
          none
        else
          let ct : Nat → ℝ := chirp_cos n
          let st : Nat → ℝ := chirp_sin n
          let ar : Nat → ℝ := fun i =>
            if i < n then re i * ct i + im i * st i else 0
          let ai : Nat → ℝ := fun i =>
            if i < n then -(re i) * st i + im i * ct i else 0
          let br := bluestein_b ct m n
          let bi := bluestein_b st m n
          match convolve_complexF fuel ar ai br bi m with
          | none => none
          | some (cr, ci) =>
            some (fun i => if i < n then cr i * ct i + ci i * st i else re i,
                  fun i => if i < n then -(cr i) * st i + ci i * ct i else im i)

/-- Embedding of `int convolve_complex(const double xreal[], …, size_t n)`.
The in-place pointwise product and the final division by `n` only touch
indices below `n`, exactly as the C loops do; `inverse_transform(xr, xi, n)`
is inlined as `transform(xi, xr, n)` with the two result arrays swapped
back (the C function body is that single delegation). -/
noncomputable def convolve_complexF :
    Nat → (Nat → ℝ) → (Nat → ℝ) → (Nat → ℝ) → (Nat → ℝ) → Nat →
      Option ((Nat → ℝ) × (Nat → ℝ))
  | fuel, xr, xi, yr, yi, n =>
    if SIZE_MAX / sizeof_double < n then none
    else
      match transformF fuel xr xi n with
      | none => none
      | some (xr1, xi1) =>
        match transformF fuel yr yi n with
        | none => none
        | some (yr1, yi1) =>
          let pr : Nat → ℝ := fun i =>
            if i < n then xr1 i * yr1 i - xi1 i * yi1 i else xr1 i
          let pi2 : Nat → ℝ := fun i =>
            if i < n then xi1 i * yr1 i + xr1 i * yi1 i else xi1 i
          match transformF fuel pi2 pr n with
          | none => none
          | some (b1, b2) =>
            some (fun i => if i < n then b2 i / n else 0,
                  fun i => if i < n then b1 i / n else 0)

end

/-- Exported `transform`: budget `2` is what the call graph of the C source
reaches (`transform → transform_bluestein → convolve_complex → transform`,
where the inner length is a power of two and dispatches without recursing). -/
noncomputable def transform (re im : Nat → ℝ) (n : Nat) : Option St :=
  transformF 2 re im n

/-- Exported `transform_bluestein` (called from `transform` with budget 1). -/
noncomputable def transform_bluestein (re im : Nat → ℝ) (n : Nat) :
    Option St :=
  transform_bluesteinF 1 re im n

/-- Exported `convolve_complex`: its inner `transform` calls get the full
budget 2, as when it is called directly by a client. -/
noncomputable def convolve_complex (xr xi yr yi : Nat → ℝ) (n : Nat) :
    Option ((Nat → ℝ) × (Nat → ℝ)) :=
  convolve_complexF 2 xr xi yr yi n

/-- Embedding of `int inverse_transform(double real[], double imag[],
size_t n)`: after `return transform(imag, real, n)` the caller's `real`
buffer holds the second array of that call and `imag` holds the first. -/
noncomputable def inverse_transform (re im : Nat → ℝ) (n : Nat) : Option St :=
  match transform im re n with
  | none => none
  | some (a, b) => some (b, a)

/-- Embedding of `int convolve_real(const double x[], const double y[],
double out[], size_t n)`: the three imaginary operands are `calloc` zeros;
the real component of the result is `out`. -/
noncomputable def convolve_real (x y : Nat → ℝ) (n : Nat) :
    Option ((Nat → ℝ) × (Nat → ℝ)) :=
  convolve_complex x (fun _ => 0) y (fun _ => 0) n

/-- State of the four output buffers of `fft_2signals`, in the order
(`X1_real`, `X2_real`, `X1_imag`, `X2_imag`). -/
abbrev PackSt : Type := (Nat → ℝ) × (Nat → ℝ) × (Nat → ℝ) × (Nat → ℝ)

/-- Body of the split loop `for (k = 1; k < n / 2; k++)` of `fft_2signals`
(iteration `q` handles `k = q + 1`); the mirrored stores read the value
written just before, exactly as the C statements
`X1_real[n-k] = X1_real[k];` etc. do. -/
def packStep (Xr Xi : Nat → ℝ) (n : Nat) (q : Nat) (s : PackSt) : PackSt :=
  let k := q + 1
  let x1r := Function.update s.1 k (0.5 * (Xr k + Xr (n - k)))
  let x1r := Function.update x1r (n - k) (x1r k)
  let x2r := Function.update s.2.1 k (0.5 * (Xi k + Xi (n - k)))
  let x2r := Function.update x2r (n - k) (x2r k)
  let x1i := Function.update s.2.2.1 k (0.5 * (Xi k - Xi (n - k)))
  let x1i := Function.update x1i (n - k) (-(x1i k))
  let x2i := Function.update s.2.2.2 k (-(0.5 * (Xr k - Xr (n - k))))
  let x2i := Function.update x2i (n - k) (-(x2i k))
  (x1r, x2r, x1i, x2i)

/-- Embedding of `int fft_2signals(double* signal_1, double* signal_2,
double* X1_real, double* X1_imag, double* X2_real, double* X2_imag,
size_t n)`.  The `malloc`-ed work arrays are filled from the two signals
below index `n` (their contents above `n` are unspecified in C and are
modelled as `0`); the four output buffers are parameters, as in C, and are
only written at the indices the C code writes. -/
noncomputable def fft_2signals (s1 s2 X1r0 X1i0 X2r0 X2i0 : Nat → ℝ)
    (n : Nat) : Option PackSt :=
  let Xre : Nat → ℝ := fun i => if i < n then s1 i else 0
  let Xim : Nat → ℝ := fun i => if i < n then s2 i else 0
  match transform Xre Xim n with
  | none => none
  | some (Xr, Xi) =>
    let x1r := Function.update X1r0 0 (Xr 0)
    let x1i := Function.update X1i0 0 0
    let x2r := Function.update X2r0 0 (Xi 0)
    let x2i := Function.update X2i0 0 0
    let x1r := Function.update x1r (n / 2) (Xi (n / 2))
    let x2r := Function.update x2r (n / 2) (Xi (n / 2))
    let x1i := Function.update x1i (n / 2) 0
    let x2i := Function.update x2i (n / 2) 0
    some (loopN (packStep Xr Xi n) (n / 2 - 1) (x1r, x2r, x1i, x2i))

/-! ### Reference definitions for the correctness statements

The state of a pair of `double` arrays is read as one complex array via
`cval`; `dft` is the textbook unnormalized forward DFT (the mathematical
reference the spec describes), `idft` its unnormalized inverse, and
`circConv` the naive circular convolution sum. -/

/-- The complex value sitting at index `j` of a (`real[]`, `imag[]`) pair. -/
noncomputable def cval (s : St) : Nat → ℂ := fun j => ⟨s.1 j, s.2 j⟩

/-- The root-of-unity power `exp(-2πi·e/m)` used by the forward DFT. -/
noncomputable def wexp (m e : Nat) : ℂ :=
  Complex.exp (-(2 * Real.pi * Complex.I) * (e : ℂ) / (m : ℂ))

/-- The root-of-unity power `exp(2πi·e/m)` used by the inverse DFT. -/
noncomputable def iwexp (m e : Nat) : ℂ :=
  Complex.exp ((2 * Real.pi * Complex.I) * (e : ℂ) / (m : ℂ))

/-- The unnormalized forward discrete Fourier transform of length `n`. -/
noncomputable def dft (n : Nat) (x : Nat → ℂ) (k : Nat) : ℂ :=
  ∑ t ∈ Finset.range n, x t * wexp n (k * t)

/-- The unnormalized inverse discrete Fourier transform of length `n`. -/
noncomputable def idft (n : Nat) (x : Nat → ℂ) (k : Nat) : ℂ :=
  ∑ t ∈ Finset.range n, x t * iwexp n (k * t)

/-- The naive circular convolution `∑_t x[t] · y[(k - t) mod n]`. -/
noncomputable def circConv (n : Nat) (x y : Nat → ℂ) (k : Nat) : ℂ :=
  ∑ t ∈ Finset.range n, x t * y ((n + k - t) % n)

/-- The Bluestein chirp as one complex number per index. -/
noncomputable def chirp (n : Nat) : Nat → ℂ :=
  fun i => ⟨chirp_cos n i, chirp_sin n i⟩

/-! ### Arithmetic facts about the integer-side helpers -/

lemma loopN_zero {α : Sort _} (f : Nat → α → α) (a : α) : loopN f 0 a = a :=
  rfl

lemma loopN_succ {α : Sort _} (f : Nat → α → α) (k : Nat) (a : α) :
    loopN f (k + 1) a = f k (loopN f k a) :=
  rfl

lemma reverse_bits_go_eq (n : Nat) :
    ∀ x acc, reverse_bits_go x acc n = acc * 2 ^ n + reverse_bits x n := by
  induction n with
  | zero => intro x acc; simp [reverse_bits_go, reverse_bits]
  | succ n ih =>
    intro x acc
    show reverse_bits_go (x / 2) (2 * acc + x % 2) n = _
    rw [ih]
    have h2 : reverse_bits x (n + 1) =
        x % 2 * 2 ^ n + reverse_bits (x / 2) n := by
      show reverse_bits_go (x / 2) (2 * 0 + x % 2) n = _
      rw [ih]; ring_nf
    rw [h2]; ring_nf

lemma reverse_bits_succ (x n : Nat) :
    reverse_bits x (n + 1) = x % 2 * 2 ^ n + reverse_bits (x / 2) n := by
  show reverse_bits_go (x / 2) (2 * 0 + x % 2) n = _
  rw [reverse_bits_go_eq]; ring_nf

lemma reverse_bits_zero (x : Nat) : reverse_bits x 0 = 0 := rfl

lemma reverse_bits_lt (n : Nat) : ∀ x, reverse_bits x n < 2 ^ n := by
  induction n with
  | zero => intro x; simp [reverse_bits_zero]
  | succ n ih =>
    intro x
    rw [reverse_bits_succ]
    have h1 : x % 2 ≤ 1 := by omega
    have h2 : reverse_bits (x / 2) n < 2 ^ n := ih (x / 2)
    have h3 : (2 : Nat) ^ (n + 1) = 2 * 2 ^ n := by ring
    rw [h3]
    nlinarith

lemma reverse_bits_mod (n : Nat) :
    ∀ x, reverse_bits (x % 2 ^ n) n = reverse_bits x n := by
  induction n with
  | zero => intro x; simp [reverse_bits_zero]
  | succ n ih =>
    intro x
    rw [reverse_bits_succ, reverse_bits_succ]
    have h1 : x % 2 ^ (n + 1) % 2 = x % 2 := by
      rw [Nat.mod_mod_of_dvd]
      exact ⟨2 ^ n, by ring⟩
    have h2 : x % 2 ^ (n + 1) / 2 = x / 2 % 2 ^ n := by
      have : (2 : Nat) ^ (n + 1) = 2 * 2 ^ n := by ring
      rw [this, Nat.mod_mul_right_div_self]
    rw [h1, h2, ih]

lemma mod_two_mul (x m : Nat) : x % (2 * m) = x % 2 + 2 * (x / 2 % m) := by
  rcases Nat.eq_zero_or_pos m with hm | hm
  · subst hm; simp [Nat.mod_zero, Nat.div_add_mod]
    omega
  · have h1 : x = 2 * m * (x / 2 / m) + (2 * (x / 2 % m) + x % 2) := by
      have d1 := Nat.div_add_mod x 2
      have d2 := Nat.div_add_mod (x / 2) m
      calc x = 2 * (x / 2) + x % 2 := by omega
        _ = 2 * (m * (x / 2 / m) + x / 2 % m) + x % 2 := by rw [d2]
        _ = 2 * m * (x / 2 / m) + (2 * (x / 2 % m) + x % 2) := by ring
    have h2 : 2 * (x / 2 % m) + x % 2 < 2 * m := by
      have := Nat.mod_lt (x / 2) hm
      omega
    calc x % (2 * m)
        = (2 * m * (x / 2 / m) + (2 * (x / 2 % m) + x % 2)) % (2 * m) := by
          rw [← h1]
      _ = (2 * (x / 2 % m) + x % 2) % (2 * m) := by
          rw [Nat.mul_comm (2 * m) (x / 2 / m), Nat.add_comm,
            Nat.add_mul_mod_self_right]
      _ = 2 * (x / 2 % m) + x % 2 := Nat.mod_eq_of_lt h2
      _ = x % 2 + 2 * (x / 2 % m) := by ring

lemma reverse_bits_high (n : Nat) :
    ∀ x, reverse_bits x (n + 1) = x / 2 ^ n % 2 + 2 * reverse_bits x n := by
  induction n with
  | zero => intro x; rw [reverse_bits_succ]; simp [reverse_bits_zero]
  | succ n ih =>
    intro x
    rw [reverse_bits_succ, ih (x / 2), reverse_bits_succ]
    have h1 : x / 2 / 2 ^ n = x / 2 ^ (n + 1) := by
      rw [Nat.div_div_eq_div_mul]
      congr 1
      ring
    rw [h1]; ring

lemma reverse_bits_involution (n : Nat) :
    ∀ x, reverse_bits (reverse_bits x n) n = x % 2 ^ n := by
  induction n with
  | zero => intro x; simp [reverse_bits_zero, Nat.mod_one]
  | succ n ih =>
    intro x
    have hy : reverse_bits (x / 2) n < 2 ^ n := reverse_bits_lt n (x / 2)
    set b := x % 2 with hb
    set y := reverse_bits (x / 2) n with hydef
    have hb1 : b ≤ 1 := by omega
    rw [reverse_bits_succ x n, ← hb, ← hydef, reverse_bits_high n]
    have e1 : (b * 2 ^ n + y) / 2 ^ n = b := by
      rw [Nat.add_comm, Nat.add_mul_div_right _ _ (Nat.pos_pow_of_pos n
        (by omega)), Nat.div_eq_of_lt hy]
      omega
    have e2 : reverse_bits (b * 2 ^ n + y) n = x / 2 % 2 ^ n := by
      rw [← reverse_bits_mod n (b * 2 ^ n + y)]
      have : (b * 2 ^ n + y) % 2 ^ n = y := by
        rw [Nat.add_comm, Nat.add_mul_mod_self_right, Nat.mod_eq_of_lt hy]
      rw [this, hydef, ih (x / 2)]
    rw [e1, e2]
    have e3 : b % 2 = b := by omega
    rw [e3]
    have e4 : (2 : Nat) ^ (n + 1) = 2 * 2 ^ n := by ring
    rw [e4, mod_two_mul x (2 ^ n)]

lemma floor_log2_two_pow (k : Nat) : floor_log2 (2 ^ k) = k := by
  induction k with
  | zero => rw [floor_log2]; simp
  | succ k ih =>
    rw [floor_log2]
    have h1 : ¬ 2 ^ (k + 1) ≤ 1 := by
      have : (2 : Nat) ^ (k + 1) ≥ 2 := by
        calc (2 : Nat) ^ (k + 1) ≥ 2 ^ 1 :=
          Nat.pow_le_pow_right (by omega) (by omega)
        _ = 2 := by ring
      omega
    rw [if_neg h1]
    have h2 : 2 ^ (k + 1) / 2 = 2 ^ k := by
      rw [pow_succ, Nat.mul_div_cancel]
      omega
    rw [h2, ih]

lemma two_pow_floor_log2_eq_iff (n : Nat) :
    2 ^ floor_log2 n = n ↔ ∃ k, n = 2 ^ k := by
  constructor
  · intro h; exact ⟨floor_log2 n, h.symm⟩
  · rintro ⟨k, rfl⟩; rw [floor_log2_two_pow]

lemma land_two_mul_two_mul (a c : Nat) : 2 * a &&& 2 * c = 2 * (a &&& c) := by
  apply Nat.eq_of_testBit_eq
  intro i
  cases i with
  | zero =>
    simp [Nat.testBit_zero, Nat.testBit_land, Nat.mul_mod_right]
  | succ i =>
    rw [Nat.testBit_land]
    simp only [Nat.testBit_succ,
      Nat.mul_div_cancel_left _ (by omega : (0 : Nat) < 2)]
    rw [← Nat.testBit_land]

lemma land_even_odd (a c : Nat) : 2 * a &&& 2 * c + 1 = 2 * (a &&& c) := by
  apply Nat.eq_of_testBit_eq
  intro i
  cases i with
  | zero =>
    simp [Nat.testBit_zero, Nat.testBit_land, Nat.mul_mod_right,
      Nat.mul_add_mod]
  | succ i =>
    rw [Nat.testBit_land]
    simp only [Nat.testBit_succ,
      Nat.mul_div_cancel_left _ (by omega : (0 : Nat) < 2),
      Nat.mul_add_div (by omega : (0 : Nat) < 2)]
    simp only [Nat.div_eq_of_lt (by omega : (1 : Nat) < 2), Nat.add_zero]
    rw [← Nat.testBit_land]

lemma land_odd_even (a c : Nat) : 2 * a + 1 &&& 2 * c = 2 * (a &&& c) := by
  apply Nat.eq_of_testBit_eq
  intro i
  cases i with
  | zero =>
    simp [Nat.testBit_zero, Nat.testBit_land, Nat.mul_mod_right,
      Nat.mul_add_mod]
  | succ i =>
    rw [Nat.testBit_land]
    simp only [Nat.testBit_succ,
      Nat.mul_div_cancel_left _ (by omega : (0 : Nat) < 2),
      Nat.mul_add_div (by omega : (0 : Nat) < 2)]
    simp only [Nat.div_eq_of_lt (by omega : (1 : Nat) < 2), Nat.add_zero]
    rw [← Nat.testBit_land]

lemma land_odd_odd (a c : Nat) : 2 * a + 1 &&& 2 * c + 1 = 2 * (a &&& c) + 1 := by
  apply Nat.eq_of_testBit_eq
  intro i
  cases i with
  | zero =>
    simp [Nat.testBit_zero, Nat.testBit_land, Nat.mul_add_mod]
  | succ i =>
    rw [Nat.testBit_land]
    simp only [Nat.testBit_succ,
      Nat.mul_add_div (by omega : (0 : Nat) < 2)]
    simp only [Nat.div_eq_of_lt (by omega : (1 : Nat) < 2), Nat.add_zero]
    rw [← Nat.testBit_land]

lemma land_self (a : Nat) : a &&& a = a := by
  apply Nat.eq_of_testBit_eq
  intro i
  rw [Nat.testBit_land, Bool.and_self]

lemma pow2_land_pred (k : Nat) : 2 ^ k &&& 2 ^ k - 1 = 0 := by
  induction k with
  | zero =>
    apply Nat.eq_of_testBit_eq
    intro i
    simp [Nat.testBit_land, Nat.zero_testBit]
  | succ k ih =>
    have h1 : (2 : Nat) ^ (k + 1) = 2 * 2 ^ k := by ring
    have h2 : (2 : Nat) ^ (k + 1) - 1 = 2 * (2 ^ k - 1) + 1 := by
      have : (2 : Nat) ^ k ≥ 1 := Nat.one_le_two_pow
      omega
    rw [h2, h1, land_even_odd, ih]

lemma land_pred_eq_zero_iff (n : Nat) (hn : 1 ≤ n) :
    n &&& n - 1 = 0 ↔ ∃ k, n = 2 ^ k := by
  constructor
  · intro h
    induction n using Nat.strong_induction_on with
    | _ n ih =>
      rcases Nat.lt_or_ge n 2 with h2 | h2
      · exact ⟨0, by omega⟩
      · rcases Nat.even_or_odd n with he | ho
        · obtain ⟨m, hm⟩ := he
          have hm2 : n = 2 * m := by omega
          have hm1 : 1 ≤ m := by omega
          have hsub : n - 1 = 2 * (m - 1) + 1 := by omega
          rw [hsub, hm2, land_even_odd] at h
          have hml : m &&& m - 1 = 0 := by omega
          obtain ⟨k, hk⟩ := ih m (by omega) (by omega) hml
          exact ⟨k + 1, by rw [hm2, hk]; ring⟩
        · obtain ⟨m, hm⟩ := ho
          have hm1 : 1 ≤ m := by omega
          have hsub : n - 1 = 2 * m := by omega
          rw [hsub, hm, land_odd_even, land_self] at h
          omega
  · rintro ⟨k, rfl⟩
    exact pow2_land_pred k

lemma SIZE_MAX_div_two : SIZE_MAX / 2 = 2 ^ 63 - 1 := by
  norm_num [SIZE_MAX]

lemma find_m_go_some_spec (target : Nat) :
    ∀ p, ∀ m, find_m_go target p = some m →
      ∀ j, p + 1 = 2 ^ j → (∀ i, i < j → 2 ^ i < target) →
      (∃ k, m = 2 ^ k) ∧ target ≤ m ∧ ∀ i, target ≤ 2 ^ i → m ≤ 2 ^ i := by
  intro p
  induction p using find_m_go.induct target with
  | case1 p h1 h2 =>
    intro m hm
    rw [find_m_go, if_pos h1, if_pos h2] at hm
    exact absurd hm (by simp)
  | case2 p h1 h2 ih =>
    intro m hm j hj hinv
    rw [find_m_go, if_pos h1, if_neg h2] at hm
    refine ih m hm (j + 1) (by rw [pow_succ]; omega) ?_
    intro i hi
    rcases Nat.lt_or_ge i j with hij | hij
    · exact hinv i hij
    · have : i = j := by omega
      subst this
      omega
  | case3 p h1 =>
    intro m hm j hj hinv
    rw [find_m_go, if_neg h1] at hm
    have hmp : m = p + 1 := by
      simpa using hm.symm
    subst hmp
    refine ⟨⟨j, hj⟩, by omega, ?_⟩
    intro i hi
    rcases Nat.lt_or_ge i j with hij | hij
    · exact absurd hi (by have := hinv i hij; omega)
    · rw [hj]
      exact Nat.pow_le_pow_right (by omega) hij

lemma find_m_go_none_spec (target : Nat) :
    ∀ p, ∀ j, p + 1 = 2 ^ j → p + 1 ≤ 2 ^ 63 →
      (find_m_go target p = none ↔ 2 ^ 63 < target) := by
  intro p
  induction p using find_m_go.induct target with
  | case1 p h1 h2 =>
    intro j hj hle
    rw [find_m_go, if_pos h1, if_pos h2]
    have h3 : p + 1 = 2 ^ 63 := by
      rw [SIZE_MAX_div_two] at h2
      omega
    constructor
    · intro _; omega
    · intro _; rfl
  | case2 p h1 h2 ih =>
    intro j hj hle
    rw [find_m_go, if_pos h1, if_neg h2]
    have hlt : p + 1 < 2 ^ 63 := by
      rw [SIZE_MAX_div_two] at h2
      omega
    have hjlt : j < 63 := by
      have := hlt
      rw [hj] at this
      exact (Nat.pow_lt_pow_iff_right (by omega)).mp this
    refine ih (j + 1) (by rw [pow_succ]; omega) ?_
    calc 2 * p + 1 + 1 = 2 ^ (j + 1) := by rw [pow_succ]; omega
      _ ≤ 2 ^ 63 := Nat.pow_le_pow_right (by omega) (by omega)
  | case3 p h1 =>
    intro j hj hle
    rw [find_m_go, if_neg h1]
    constructor
    · intro h; exact absurd h (by simp)
    · intro h; omega

lemma find_m_some_spec (target m : Nat) (h : find_m target = some m) :
    (∃ k, m = 2 ^ k) ∧ target ≤ m ∧ ∀ i, target ≤ 2 ^ i → m ≤ 2 ^ i :=
  find_m_go_some_spec target 0 m h 0 (by norm_num) (by omega)

lemma find_m_none_iff (target : Nat) :
    find_m target = none ↔ 2 ^ 63 < target :=
  find_m_go_none_spec target 0 0 (by norm_num) (by norm_num)

/-! ### The bit-reversal addressing pass is the bit-reversal permutation -/

lemma brSwap_pair (levels i : Nat) (s : St) :
    brSwap levels i s = (brSwap1 levels i s.1, brSwap1 levels i s.2) := by
  unfold brSwap brSwap1
  by_cases h : reverse_bits i levels > i <;> simp [h]

lemma loopN_pair (F : Nat → St → St) (G : Nat → (Nat → ℝ) → (Nat → ℝ))
    (hFG : ∀ i s, F i s = (G i s.1, G i s.2)) :
    ∀ t s, loopN F t s = (loopN G t s.1, loopN G t s.2) := by
  intro t
  induction t with
  | zero => intro s; rfl
  | succ t ih =>
    intro s
    rw [loopN_succ, loopN_succ, loopN_succ, ih s, hFG]

lemma swap_loop_spec (r : Nat → Nat) (n : Nat)
    (hr : ∀ p, p < n → r p < n) (hinv : ∀ p, p < n → r (r p) = p)
    (f : Nat → ℝ) :
    ∀ t, t ≤ n → ∀ p,
      loopN (fun i g => if r i > i then
          Function.update (Function.update g i (g (r i))) (r i) (g i) else g)
        t f p =
        if p < n ∧ min p (r p) < t then f (r p) else f p := by
  intro t
  induction t with
  | zero =>
    intro _ p
    rw [loopN_zero]
    have hc : ¬(p < n ∧ min p (r p) < 0) := by omega
    rw [if_neg hc]
  | succ t ih =>
    intro ht p
    have ht1 : t ≤ n := by omega
    have htn : t < n := by omega
    rw [loopN_succ]
    have ihp := ih ht1
    generalize hA : loopN (fun i g => if r i > i then
        Function.update (Function.update g i (g (r i))) (r i) (g i) else g)
      t f = A at ihp ⊢
    show (if r t > t then
        Function.update (Function.update A t (A (r t))) (r t) (A t) else A) p =
      if p < n ∧ min p (r p) < t + 1 then f (r p) else f p
    by_cases hjt : r t > t
    · -- the swap of positions t and r t takes place
      rw [if_pos hjt]
      have hrt : r t < n := hr t htn
      have hrrt : r (r t) = t := hinv t htn
      by_cases hp1 : p = t
      · rw [hp1]
        rw [Function.update_noteq (by omega), Function.update_same]
        rw [ihp (r t)]
        have hcond : ¬(r t < n ∧ min (r t) (r (r t)) < t) := by
          rw [hrrt]
          omega
        rw [if_neg hcond, if_pos (by omega)]
      · by_cases hp2 : p = r t
        · rw [hp2]
          rw [Function.update_same]
          rw [ihp t]
          have hcond : ¬(t < n ∧ min t (r t) < t) := by omega
          rw [if_neg hcond]
          have : min (r t) (r (r t)) < t + 1 := by rw [hrrt]; omega
          rw [if_pos ⟨hrt, this⟩, hrrt]
        · rw [Function.update_noteq (fun h => hp2 h),
            Function.update_noteq (fun h => hp1 h)]
          rw [ihp p]
          congr 1
          by_cases hpn : p < n
          · have hne : r p ≠ t := by
              intro h
              apply hp2
              rw [← h, hinv p hpn]
            have : min p (r p) < t + 1 ↔ min p (r p) < t := by
              rcases Nat.lt_or_ge (min p (r p)) t with h | h
              · omega
              · constructor
                · intro hlt
                  have hmin : min p (r p) = t := by omega
                  rcases min_cases p (r p) with ⟨he, _⟩ | ⟨he, _⟩
                  · exact absurd (he.symm.trans hmin) hp1
                  · exact absurd (he.symm.trans hmin) hne
                · intro hlt; omega
            simp [this]
          · simp [hpn]
    · -- no swap: r t ≤ t
      rw [if_neg hjt, ihp p]
      by_cases hpn : p < n
      · by_cases heq : min p (r p) < t
        · rw [if_pos ⟨hpn, heq⟩, if_pos ⟨hpn, by omega⟩]
        · rw [if_neg (by omega)]
          by_cases heq1 : min p (r p) < t + 1
          · -- only possible when p = t and r t = t, where both sides agree
            have hmin : min p (r p) = t := by omega
            have hpt : p = t := by
              rcases min_cases p (r p) with ⟨he, hle⟩ | ⟨he, hle⟩
              · omega
              · -- r p = t ≤ p, so p = r (r p) = r t ≤ t ≤ p
                have h1 : r p = t := by omega
                have h2 : r (r p) = p := hinv p hpn
                rw [h1] at h2
                omega
            have hrt : r t = t := by
              subst hpt
              omega
            rw [if_pos ⟨hpn, heq1⟩, hpt, hrt]
          · rw [if_neg (by omega)]
      · rw [if_neg (by omega), if_neg (by omega)]

/-- The bit-reversal pass of `transform_radix2`, run over all `n = 2 ^ levels`
indices, permutes each array by the bit-reversal permutation. -/
lemma brPass_spec (levels : Nat) (s : St) (p : Nat) (hp : p < 2 ^ levels) :
    (loopN (brSwap levels) (2 ^ levels) s).1 p
        = s.1 (reverse_bits p levels) ∧
      (loopN (brSwap levels) (2 ^ levels) s).2 p
        = s.2 (reverse_bits p levels) := by
  have hpair := loopN_pair (brSwap levels) (brSwap1 levels)
    (brSwap_pair levels) (2 ^ levels) s
  have hr : ∀ q, q < 2 ^ levels → reverse_bits q levels < 2 ^ levels :=
    fun q _ => reverse_bits_lt levels q
  have hinv : ∀ q, q < 2 ^ levels →
      reverse_bits (reverse_bits q levels) levels = q := by
    intro q hq
    rw [reverse_bits_involution levels q, Nat.mod_eq_of_lt hq]
  have h1 := swap_loop_spec (fun q => reverse_bits q levels) (2 ^ levels)
    hr hinv s.1 (2 ^ levels) le_rfl p
  have h2 := swap_loop_spec (fun q => reverse_bits q levels) (2 ^ levels)
    hr hinv s.2 (2 ^ levels) le_rfl p
  have hcond : p < 2 ^ levels ∧
      min p (reverse_bits p levels) < 2 ^ levels := by
    constructor
    · exact hp
    · have := reverse_bits_lt levels p
      omega
  rw [if_pos hcond] at h1 h2
  constructor
  · rw [hpair]
    exact h1
  · rw [hpair]
    exact h2

/-! ### Dispatch and fuel lemmas -/

lemma transform_radix2_eq (re im : Nat → ℝ) (n : Nat) :
    transform_radix2 re im n =
      if 2 ^ floor_log2 n ≠ n then none
      else if SIZE_MAX / sizeof_double < n / 2 then none
      else some (bfStages (fun i => Real.cos (2 * Real.pi * i / n))
        (fun i => Real.sin (2 * Real.pi * i / n)) n (floor_log2 n)
        (loopN (brSwap (floor_log2 n)) n (re, im))) :=
  rfl

lemma transformF_n_zero (fuel : Nat) (re im : Nat → ℝ) :
    transformF (fuel + 1) re im 0 = some (re, im) := by
  rw [transformF]
  simp

lemma transformF_pow2 (fuel : Nat) (re im : Nat → ℝ) (n : Nat)
    (h1 : 1 ≤ n) (h : ∃ k, n = 2 ^ k) :
    transformF (fuel + 1) re im n = transform_radix2 re im n := by
  rw [transformF]
  rw [if_neg (by omega), if_pos ((land_pred_eq_zero_iff n h1).mpr h)]

lemma transformF_not_pow2 (fuel : Nat) (re im : Nat → ℝ) (n : Nat)
    (h1 : 1 ≤ n) (h : ¬∃ k, n = 2 ^ k) :
    transformF (fuel + 1) re im n = transform_bluesteinF fuel re im n := by
  rw [transformF]
  rw [if_neg (by omega),
    if_neg (fun hc => h ((land_pred_eq_zero_iff n h1).mp hc))]

lemma transform_radix2_not_pow2 (re im : Nat → ℝ) (n : Nat)
    (h : ¬∃ k, n = 2 ^ k) : transform_radix2 re im n = none := by
  rw [transform_radix2_eq]
  rw [if_pos (fun hc => h ((two_pow_floor_log2_eq_iff n).mp hc))]

lemma transform_radix2_none_iff (re im : Nat → ℝ) (n : Nat)
    (h : ∃ k, n = 2 ^ k) :
    transform_radix2 re im n = none ↔ SIZE_MAX / sizeof_double < n / 2 := by
  rw [transform_radix2_eq, if_neg (by
    rw [not_not]
    exact (two_pow_floor_log2_eq_iff n).mpr h)]
  by_cases hg : SIZE_MAX / sizeof_double < n / 2
  · simp [hg]
  · simp [hg]

lemma convolve_complexF_fuel (f1 f2 : Nat) (xr xi yr yi : Nat → ℝ) (m : Nat)
    (hm : ∃ k, m = 2 ^ k) :
    convolve_complexF (f1 + 1) xr xi yr yi m =
      convolve_complexF (f2 + 1) xr xi yr yi m := by
  have hm1 : 1 ≤ m := by
    obtain ⟨k, rfl⟩ := hm
    exact Nat.one_le_two_pow
  have key1 : ∀ a b : Nat → ℝ, transformF (f1 + 1) a b m =
      transform_radix2 a b m := fun a b => transformF_pow2 f1 a b m hm1 hm
  have key2 : ∀ a b : Nat → ℝ, transformF (f2 + 1) a b m =
      transform_radix2 a b m := fun a b => transformF_pow2 f2 a b m hm1 hm
  rw [convolve_complexF, convolve_complexF]
  simp only [key1, key2]

lemma transform_bluesteinF_fuel (f1 f2 : Nat) (re im : Nat → ℝ) (n : Nat) :
    transform_bluesteinF (f1 + 1) re im n =
      transform_bluesteinF (f2 + 1) re im n := by
  rw [transform_bluesteinF, transform_bluesteinF]
  by_cases hg : n > (SIZE_MAX - 1) / 2
  · rw [if_pos hg, if_pos hg]
  · rw [if_neg hg, if_neg hg]
    cases hfm : find_m (n * 2 + 1) with
    | none => rfl
    | some m =>
      have hm : ∃ k, m = 2 ^ k := (find_m_some_spec _ m hfm).1
      simp only []
      rw [convolve_complexF_fuel f1 f2 _ _ _ _ m hm]

lemma transformF_fuel (f1 f2 : Nat) (re im : Nat → ℝ) (n : Nat) :
    transformF (f1 + 2) re im n = transformF (f2 + 2) re im n := by
  show transformF (f1 + 1 + 1) re im n = transformF (f2 + 1 + 1) re im n
  rw [transformF, transformF]
  by_cases h0 : n = 0
  · rw [if_pos h0, if_pos h0]
  · rw [if_neg h0, if_neg h0]
    by_cases hp : n &&& n - 1 = 0
    · rw [if_pos hp, if_pos hp]
    · rw [if_neg hp, if_neg hp]
      exact transform_bluesteinF_fuel f1 f2 re im n

/-! ### Closed form of the Bluestein `b` sequence -/

lemma bFill_loop_spec (table : Nat → ℝ) (m n : Nat) (hmn : 2 * n + 1 ≤ m)
    (b0 : Nat → ℝ) :
    ∀ t, t ≤ n - 1 → ∀ p,
      loopN (fun q b => Function.update
          (Function.update b (q + 1) (table (q + 1))) (m - (q + 1))
          (table (q + 1))) t b0 p =
        if 1 ≤ p ∧ p ≤ t then table p
        else if m - t ≤ p ∧ p ≤ m - 1 then table (m - p)
        else b0 p := by
  intro t
  induction t with
  | zero =>
    intro _ p
    rw [loopN_zero, if_neg (by omega), if_neg (by omega)]
  | succ t ih =>
    intro ht p
    have htn : t + 1 ≤ n - 1 := ht
    have hfar : n + 2 ≤ m - (t + 1) := by omega
    rw [loopN_succ]
    have ihp := ih (by omega)
    generalize hA : loopN (fun q b => Function.update
        (Function.update b (q + 1) (table (q + 1))) (m - (q + 1))
        (table (q + 1))) t b0 = A at ihp ⊢
    show Function.update (Function.update A (t + 1) (table (t + 1)))
        (m - (t + 1)) (table (t + 1)) p =
      if 1 ≤ p ∧ p ≤ t + 1 then table p
      else if m - (t + 1) ≤ p ∧ p ≤ m - 1 then table (m - p)
      else b0 p
    by_cases hp1 : p = m - (t + 1)
    · rw [hp1, Function.update_same]
      have hmp : m - (m - (t + 1)) = t + 1 := by omega
      split_ifs <;> first | (rw [hmp]) | omega
    · rw [Function.update_noteq (fun h => hp1 h)]
      by_cases hp2 : p = t + 1
      · rw [hp2, Function.update_same]
        split_ifs <;> first | rfl | omega
      · rw [Function.update_noteq (fun h => hp2 h), ihp p]
        split_ifs <;> first | rfl | omega

lemma bFill_spec (table : Nat → ℝ) (m n : Nat) (hmn : 2 * n + 1 ≤ m)
    (b0 : Nat → ℝ) (p : Nat) :
    bFill table m n b0 p =
      if 1 ≤ p ∧ p ≤ n - 1 then table p
      else if m - (n - 1) ≤ p ∧ p ≤ m - 1 then table (m - p)
      else b0 p :=
  bFill_loop_spec table m n hmn b0 (n - 1) le_rfl p

/-! ### Small helper facts used by claims and witnesses -/

lemma ne_two_pow_of_bounds (n j : Nat) (h1 : 2 ^ j < n) (h2 : n < 2 ^ (j + 1)) :
    ¬∃ k, n = 2 ^ k := by
  rintro ⟨k, rfl⟩
  rcases Nat.lt_or_ge k (j + 1) with h | h
  · have : 2 ^ k ≤ 2 ^ j := Nat.pow_le_pow_right (by omega) (by omega)
    omega
  · have : 2 ^ (j + 1) ≤ 2 ^ k := Nat.pow_le_pow_right (by omega) h
    omega

lemma three_not_pow2 : ¬∃ k, (3 : Nat) = 2 ^ k :=
  ne_two_pow_of_bounds 3 1 (by norm_num) (by norm_num)

lemma twelve_not_pow2 : ¬∃ k, (12 : Nat) = 2 ^ k :=
  ne_two_pow_of_bounds 12 3 (by norm_num) (by norm_num)

lemma find_m_five : find_m 5 = some 8 := by
  rw [find_m]
  rw [find_m_go, if_pos (by norm_num),
    if_neg (by norm_num [SIZE_MAX])]
  rw [find_m_go, if_pos (by norm_num),
    if_neg (by norm_num [SIZE_MAX])]
  rw [find_m_go, if_pos (by norm_num),
    if_neg (by norm_num [SIZE_MAX])]
  rw [find_m_go, if_neg (by norm_num)]

lemma no_pow2_for_large_target :
    ¬∃ i : Nat, 2 ^ 62 * 2 + 1 ≤ 2 ^ i ∧ 2 ^ i ≤ SIZE_MAX := by
  rintro ⟨i, h1, h2⟩
  have h3 : (2 : Nat) ^ 62 * 2 = 2 ^ 63 := by rw [← pow_succ]
  have hi1 : 63 < i := by
    by_contra hle
    have : 2 ^ i ≤ 2 ^ 63 := Nat.pow_le_pow_right (by omega) (by omega)
    omega
  have h4 : 2 ^ 64 ≤ 2 ^ i := Nat.pow_le_pow_right (by omega) (by omega)
  have hS : SIZE_MAX < 2 ^ 64 := by norm_num [SIZE_MAX]
  omega

/-! ### Claims -/

/-- Claim C5: the dispatcher `transform` is a no-op success on `n = 0`,
delegates to `transform_radix2` for `n ≥ 1` an exact power of two, and
delegates to `transform_bluestein` for all other `n ≥ 1`. -/
theorem claim_C5 (re im : Nat → ℝ) (n : Nat) :
    transform re im 0 = some (re, im) ∧
    (1 ≤ n → (∃ k, n = 2 ^ k) →
      transform re im n = transform_radix2 re im n) ∧
    (1 ≤ n → ¬(∃ k, n = 2 ^ k) →
      transform re im n = transform_bluestein re im n) := by
  refine ⟨transformF_n_zero 1 re im, ?_, ?_⟩
  · intro h1 h2
    exact transformF_pow2 1 re im n h1 h2
  · intro h1 h2
    exact transformF_not_pow2 1 re im n h1 h2

/-- Witness for claim C5 at `n = 4` (power of two) and `n = 3`
(not a power of two). -/
theorem claim_C5_witness :
    ((1 : Nat) ≤ 4 ∧ (∃ k, (4 : Nat) = 2 ^ k)) ∧
    ((1 : Nat) ≤ 3 ∧ ¬(∃ k, (3 : Nat) = 2 ^ k)) ∧
    transform (fun _ => 0) (fun _ => 0) 4 =
      transform_radix2 (fun _ => 0) (fun _ => 0) 4 ∧
    transform (fun _ => 0) (fun _ => 0) 3 =
      transform_bluestein (fun _ => 0) (fun _ => 0) 3 :=
  ⟨⟨by omega, ⟨2, by norm_num⟩⟩, ⟨by omega, three_not_pow2⟩,
    (claim_C5 (fun _ => 0) (fun _ => 0) 4).2.1 (by omega) ⟨2, by norm_num⟩,
    (claim_C5 (fun _ => 0) (fun _ => 0) 3).2.2 (by omega) three_not_pow2⟩

/-- Claim C7: `transform_radix2` fails on every `n` that is not an exact
power of two (including `n = 0`); on every power of two its internal
check `1 << levels == n` with `levels = floor(log2 n)` passes, and (since
allocation is modelled as always succeeding) it fails exactly on the
table-size overflow guard. -/
theorem claim_C7 (re im : Nat → ℝ) (n : Nat) :
    (¬(∃ k, n = 2 ^ k) → transform_radix2 re im n = none) ∧
    ((∃ k, n = 2 ^ k) → 2 ^ floor_log2 n = n ∧
      (transform_radix2 re im n = none ↔
        SIZE_MAX / sizeof_double < n / 2)) := by
  constructor
  · exact transform_radix2_not_pow2 re im n
  · intro h
    exact ⟨(two_pow_floor_log2_eq_iff n).mpr h,
      transform_radix2_none_iff re im n h⟩

/-- Witness for claim C7 at `n = 12` (not a power of two) and `n = 8`. -/
theorem claim_C7_witness :
    (¬(∃ k, (12 : Nat) = 2 ^ k)) ∧ (∃ k, (8 : Nat) = 2 ^ k) ∧
    transform_radix2 (fun _ => 0) (fun _ => 0) 12 = none ∧
    2 ^ floor_log2 8 = 8 :=
  ⟨twelve_not_pow2, ⟨3, by norm_num⟩,
    (claim_C7 (fun _ => 0) (fun _ => 0) 12).1 twelve_not_pow2,
    ((claim_C7 (fun _ => 0) (fun _ => 0) 8).2 ⟨3, by norm_num⟩).1⟩

/-- Claim C8: `inverse_transform(real, imag, n)` returns the same success
flag as `transform(imag, real, n)` and its two result arrays are exactly
the two arrays of that call (swapped back into the caller's buffers), with
no `1/n` rescaling anywhere. -/
theorem claim_C8 (re im : Nat → ℝ) (n : Nat) :
    inverse_transform re im n =
      Option.map (fun p : St => (p.2, p.1)) (transform im re n) := by
  rw [inverse_transform]
  cases transform im re n with
  | none => rfl
  | some p => cases p; rfl

/-- Claim C9: the convolution length `m` chosen by `transform_bluestein`
is always a power of two (so the inner `transform` calls dispatch to the
radix-2 engine), and the mutual recursion has depth at most one: every
recursion budget of at least two launches of `transform` (respectively at
least one re-entry for `transform_bluestein`) computes the same result as
the exported entry point, i.e. the recursion terminates after one level. -/
theorem claim_C9 (re im : Nat → ℝ) (n : Nat) :
    (∀ m, find_m (n * 2 + 1) = some m → ∃ k, m = 2 ^ k) ∧
    (∀ fuel, transformF (fuel + 2) re im n = transform re im n) ∧
    (∀ fuel, transform_bluesteinF (fuel + 1) re im n =
      transform_bluestein re im n) := by
  refine ⟨?_, ?_, ?_⟩
  · intro m hm
    exact (find_m_some_spec _ m hm).1
  · intro fuel
    exact transformF_fuel fuel 0 re im n
  · intro fuel
    exact transform_bluesteinF_fuel fuel 0 re im n

/-- Witness for claim C9: the `m` chosen for `n = 2` is `8 = 2 ^ 3`. -/
theorem claim_C9_witness :
    find_m (2 * 2 + 1) = some 8 ∧ (∃ k, (8 : Nat) = 2 ^ k) :=
  ⟨find_m_five,
    (claim_C9 (fun _ => 0) (fun _ => 0) 2).1 8 find_m_five⟩

/-- Claim C6: `transform_bluestein` fails deterministically whenever
`n > (SIZE_MAX - 1) / 2` (before building anything); when its length loop
produces an `m`, that `m` is the smallest power of two with `m ≥ 2n + 1`;
and when no power of two `≥ 2n + 1` is representable in `size_t`, the loop
(and hence the function) fails instead. -/
theorem claim_C6 (fuel : Nat) (re im : Nat → ℝ) (n : Nat) :
    ((SIZE_MAX - 1) / 2 < n → transform_bluesteinF fuel re im n = none) ∧
    (∀ m, find_m (n * 2 + 1) = some m →
      (∃ k, m = 2 ^ k) ∧ n * 2 + 1 ≤ m ∧
        ∀ i, n * 2 + 1 ≤ 2 ^ i → m ≤ 2 ^ i) ∧
    ((¬∃ i, n * 2 + 1 ≤ 2 ^ i ∧ 2 ^ i ≤ SIZE_MAX) →
      find_m (n * 2 + 1) = none ∧
        transform_bluesteinF fuel re im n = none) := by
  refine ⟨?_, ?_, ?_⟩
  · intro h
    rw [transform_bluesteinF, if_pos h]
  · intro m hm
    exact find_m_some_spec (n * 2 + 1) m hm
  · intro h
    have htarget : 2 ^ 63 < n * 2 + 1 := by
      by_contra hle
      exact h ⟨63, by omega, by norm_num [SIZE_MAX]⟩
    have hnone : find_m (n * 2 + 1) = none :=
      (find_m_none_iff (n * 2 + 1)).mpr htarget
    refine ⟨hnone, ?_⟩
    rw [transform_bluesteinF]
    by_cases hg : n > (SIZE_MAX - 1) / 2
    · rw [if_pos hg]
    · rw [if_neg hg, hnone]

/-- Witness for claim C6: `n = 2^63` trips the first guard, `n = 2`
yields the minimal power of two `m = 8 ≥ 5`, and `n = 2^62` (for which
`2n + 1 = 2^63 + 1` exceeds every representable power of two) makes the
length loop fail. -/
theorem claim_C6_witness :
    ((SIZE_MAX - 1) / 2 < 2 ^ 63 ∧
      transform_bluesteinF 1 (fun _ => 0) (fun _ => 0) (2 ^ 63) = none) ∧
    (find_m (2 * 2 + 1) = some 8 ∧ (2 : Nat) * 2 + 1 ≤ 8) ∧
    ((¬∃ i, 2 ^ 62 * 2 + 1 ≤ 2 ^ i ∧ 2 ^ i ≤ SIZE_MAX) ∧
      find_m (2 ^ 62 * 2 + 1) = none) :=
  ⟨⟨by norm_num [SIZE_MAX],
      (claim_C6 1 (fun _ => 0) (fun _ => 0) (2 ^ 63)).1
        (by norm_num [SIZE_MAX])⟩,
    ⟨find_m_five,
      ((claim_C6 1 (fun _ => 0) (fun _ => 0) 2).2.1 8 find_m_five).2.1⟩,
    ⟨no_pow2_for_large_target,
      ((claim_C6 1 (fun _ => 0) (fun _ => 0) (2 ^ 62)).2.2
        no_pow2_for_large_target).1⟩⟩

/-- Claim C10: for any bit width `w` (up to the `size_t` width) and any
`x < 2 ^ w`, `reverse_bits` stays below `2 ^ w` and is an involution, and
the bit-reversal pass of `transform_radix2` (conditional swaps `i ↔
reverse_bits(i, levels)` performed only when the partner is larger) is the
bit-reversal permutation: the element originally at index `p` ends at
index `reverse_bits(p, w)`. -/
theorem claim_C10 (w x : Nat) (_hw : w ≤ 64) (hx : x < 2 ^ w) :
    reverse_bits x w < 2 ^ w ∧
    reverse_bits (reverse_bits x w) w = x ∧
    ∀ s : St, ∀ p, p < 2 ^ w →
      (loopN (brSwap w) (2 ^ w) s).1 p = s.1 (reverse_bits p w) ∧
      (loopN (brSwap w) (2 ^ w) s).2 p = s.2 (reverse_bits p w) := by
  refine ⟨reverse_bits_lt w x, ?_, ?_⟩
  · rw [reverse_bits_involution w x, Nat.mod_eq_of_lt hx]
  · intro s p hp
    exact brPass_spec w s p hp

/-- Witness for claim C10 at `w = 3`, `x = 5`. -/
theorem claim_C10_witness :
    (3 : Nat) ≤ 64 ∧ (5 : Nat) < 2 ^ 3 ∧
    (reverse_bits 5 3 < 2 ^ 3 ∧
      reverse_bits (reverse_bits 5 3) 3 = 5 ∧
      ∀ s : St, ∀ p, p < 2 ^ 3 →
        (loopN (brSwap 3) (2 ^ 3) s).1 p = s.1 (reverse_bits p 3) ∧
        (loopN (brSwap 3) (2 ^ 3) s).2 p = s.2 (reverse_bits p 3)) :=
  ⟨by omega, by norm_num, claim_C10 3 5 (by omega) (by norm_num)⟩

/-! ### Claim C4: the `b` sequence of the Bluestein adapter -/

lemma bluestein_b_closed (tbl : Nat → ℝ) (m n : Nat) (hmn : 2 * n + 1 ≤ m) :
    (bluestein_b tbl m n 0 = tbl 0) ∧
    (∀ i, 1 ≤ i → i < n → bluestein_b tbl m n i = tbl i ∧
      bluestein_b tbl m n (m - i) = tbl i) ∧
    (∀ j, j ≠ 0 → ¬(1 ≤ j ∧ j ≤ n - 1) → ¬(m - (n - 1) ≤ j ∧ j ≤ m - 1) →
      bluestein_b tbl m n j = 0) := by
  refine ⟨?_, ?_, ?_⟩
  · rw [bluestein_b, bFill_spec tbl m n hmn _ 0,
      if_neg (by omega), if_neg (by omega), Function.update_same]
  · intro i h1 h2
    constructor
    · rw [bluestein_b, bFill_spec tbl m n hmn _ i, if_pos (by omega)]
    · rw [bluestein_b, bFill_spec tbl m n hmn _ (m - i),
        if_neg (by omega), if_pos (by omega)]
      congr 1
      omega
  · intro j hj0 hj1 hj2
    rw [bluestein_b, bFill_spec tbl m n hmn _ j, if_neg hj1, if_neg hj2,
      Function.update_noteq hj0]

/-- Counterexample to claim C4 as stated: for `n = 2` the chosen length is
`m = 8`, and at `i = 1` the mirrored entry `b[m-i]` equals `b[i]` itself,
not its complex conjugate — the imaginary components are `b_imag[7] = 1`
and `b_imag[1] = 1`, and `1 ≠ -1`, so `b` is not Hermitian. -/
theorem claim_C4_counterexample :
    find_m (2 * 2 + 1) = some 8 ∧
    bluestein_b (chirp_sin 2) 8 2 (8 - 1) = 1 ∧
    bluestein_b (chirp_sin 2) 8 2 1 = 1 ∧
    bluestein_b (chirp_sin 2) 8 2 (8 - 1) ≠
      -(bluestein_b (chirp_sin 2) 8 2 1) := by
  have hsin : chirp_sin 2 1 = 1 := by
    have h : Real.pi *
        ((1 * 1 % 2 ^ 64 % (2 * 2 % 2 ^ 64) : Nat) : ℝ) / ((2 : Nat) : ℝ) =
        Real.pi / 2 := by
      norm_num
    unfold chirp_sin
    rw [h, Real.sin_pi_div_two]
  have hstep : ∀ (b0 : Nat → ℝ) (f : Nat → (Nat → ℝ) → (Nat → ℝ)),
      loopN f (2 - 1) b0 = f 0 b0 := fun _ _ => rfl
  have hb7 : bluestein_b (chirp_sin 2) 8 2 (8 - 1) = 1 := by
    rw [bluestein_b, bFill, hstep]
    rw [Function.update_apply, if_pos (by norm_num)]
    exact hsin
  have hb1 : bluestein_b (chirp_sin 2) 8 2 1 = 1 := by
    rw [bluestein_b, bFill, hstep]
    rw [Function.update_apply, if_neg (by norm_num), Function.update_apply,
      if_pos (by norm_num)]
    exact hsin
  refine ⟨find_m_five, hb7, hb1, ?_⟩
  rw [hb7, hb1]
  norm_num

/-- Claim C4, amended: for every `n ≥ 1` with chosen convolution length
`m`, the constructed length-`m` sequence `b` satisfies `b[0] = chirp[0]`,
`b[i] = b[m-i] = chirp[i]` for all `1 ≤ i < n`, and `b[j] = 0` for all
other `j`; and this `b` is symmetric — for every `1 ≤ i < n` the value
`b[m-i]` equals `b[i]` itself (it is the complex conjugate only where the
chirp is real, which fails in general). -/
theorem claim_C4 (n m : Nat) (_hn : 1 ≤ n) (hm : find_m (n * 2 + 1) = some m) :
    (bluestein_b (chirp_cos n) m n 0 = chirp_cos n 0 ∧
      bluestein_b (chirp_sin n) m n 0 = chirp_sin n 0) ∧
    (∀ i, 1 ≤ i → i < n →
      bluestein_b (chirp_cos n) m n i = chirp_cos n i ∧
      bluestein_b (chirp_cos n) m n (m - i) = chirp_cos n i ∧
      bluestein_b (chirp_sin n) m n i = chirp_sin n i ∧
      bluestein_b (chirp_sin n) m n (m - i) = chirp_sin n i) ∧
    (∀ j, j ≠ 0 → ¬(1 ≤ j ∧ j ≤ n - 1) → ¬(m - (n - 1) ≤ j ∧ j ≤ m - 1) →
      bluestein_b (chirp_cos n) m n j = 0 ∧
      bluestein_b (chirp_sin n) m n j = 0) ∧
    (∀ i, 1 ≤ i → i < n →
      bluestein_b (chirp_cos n) m n (m - i) =
        bluestein_b (chirp_cos n) m n i ∧
      bluestein_b (chirp_sin n) m n (m - i) =
        bluestein_b (chirp_sin n) m n i) := by
  have hmn : 2 * n + 1 ≤ m := by
    have := (find_m_some_spec (n * 2 + 1) m hm).2.1
    omega
  have hc := bluestein_b_closed (chirp_cos n) m n hmn
  have hs := bluestein_b_closed (chirp_sin n) m n hmn
  refine ⟨⟨hc.1, hs.1⟩, ?_, ?_, ?_⟩
  · intro i h1 h2
    exact ⟨(hc.2.1 i h1 h2).1, (hc.2.1 i h1 h2).2,
      (hs.2.1 i h1 h2).1, (hs.2.1 i h1 h2).2⟩
  · intro j hj0 hj1 hj2
    exact ⟨hc.2.2 j hj0 hj1 hj2, hs.2.2 j hj0 hj1 hj2⟩
  · intro i h1 h2
    exact ⟨(hc.2.1 i h1 h2).2.trans (hc.2.1 i h1 h2).1.symm,
      (hs.2.1 i h1 h2).2.trans (hs.2.1 i h1 h2).1.symm⟩

/-- Witness for (amended) claim C4 at `n = 2`, `m = 8`, consequence taken
at `i = 1`. -/
theorem claim_C4_witness :
    (1 : Nat) ≤ 2 ∧ find_m (2 * 2 + 1) = some 8 ∧
    bluestein_b (chirp_sin 2) 8 2 (8 - 1) = bluestein_b (chirp_sin 2) 8 2 1 :=
  ⟨by omega, find_m_five,
    ((claim_C4 2 8 (by omega) find_m_five).2.2.2 1 (by omega) (by omega)).2⟩

/-! ### Root-of-unity algebra -/

lemma two_pi_I_ne_zero : (2 : ℂ) * Real.pi * Complex.I ≠ 0 :=
  mul_ne_zero (mul_ne_zero two_ne_zero
    (Complex.ofReal_ne_zero.mpr Real.pi_ne_zero)) Complex.I_ne_zero

lemma wexp_zero (m : Nat) : wexp m 0 = 1 := by
  simp [wexp]

lemma wexp_add (m a b : Nat) : wexp m (a + b) = wexp m a * wexp m b := by
  rw [wexp, wexp, wexp, ← Complex.exp_add]
  congr 1
  push_cast
  ring

lemma wexp_mul_self (m t : Nat) (hm : 1 ≤ m) : wexp m (m * t) = 1 := by
  have hm0 : (m : ℂ) ≠ 0 := Nat.cast_ne_zero.mpr (by omega)
  rw [wexp]
  have h : -(2 * (Real.pi : ℂ) * Complex.I) * ((m * t : ℕ) : ℂ) / (m : ℂ) =
      ((-(t : ℤ) : ℤ) : ℂ) * (2 * (Real.pi : ℂ) * Complex.I) := by
    push_cast
    field_simp
    ring
  rw [h, Complex.exp_int_mul_two_pi_mul_I]

lemma wexp_two_mul (m e : Nat) (hm : 1 ≤ m) :
    wexp (2 * m) (2 * e) = wexp m e := by
  have hm0 : (m : ℂ) ≠ 0 := Nat.cast_ne_zero.mpr (by omega)
  rw [wexp, wexp]
  congr 1
  push_cast
  field_simp
  ring

lemma wexp_half (m : Nat) (hm : 1 ≤ m) : wexp (2 * m) m = -1 := by
  have hm0 : (m : ℂ) ≠ 0 := Nat.cast_ne_zero.mpr (by omega)
  rw [wexp]
  have h : -(2 * (Real.pi : ℂ) * Complex.I) * ((m : ℕ) : ℂ) / ((2 * m : ℕ) : ℂ) =
      -((Real.pi : ℂ) * Complex.I) := by
    push_cast
    field_simp
    ring
  rw [h, Complex.exp_neg, Complex.exp_pi_mul_I]
  norm_num

lemma wexp_mk (n k : Nat) :
    wexp n k = ⟨Real.cos (2 * Real.pi * k / n),
      -Real.sin (2 * Real.pi * k / n)⟩ := by
  rw [wexp]
  have h : -(2 * (Real.pi : ℂ) * Complex.I) * (k : ℂ) / (n : ℂ) =
      ((-(2 * Real.pi * k / n) : ℝ) : ℂ) * Complex.I := by
    push_cast
    ring
  rw [h, Complex.exp_mul_I, ← Complex.ofReal_cos, ← Complex.ofReal_sin,
    Real.cos_neg, Real.sin_neg, Complex.mk_eq_add_mul_I]

/-- Splitting a sum over `range (2m)` into even and odd indices. -/
lemma sum_range_even_odd (f : Nat → ℂ) (m : Nat) :
    ∑ t ∈ Finset.range (2 * m), f t =
      ∑ t ∈ Finset.range m, f (2 * t) +
        ∑ t ∈ Finset.range m, f (2 * t + 1) := by
  induction m with
  | zero => simp
  | succ m ih =>
    have h2 : 2 * (m + 1) = 2 * m + 1 + 1 := by ring
    rw [h2, Finset.sum_range_succ, Finset.sum_range_succ,
      Finset.sum_range_succ (fun t => f (2 * t)) m,
      Finset.sum_range_succ (fun t => f (2 * t + 1)) m, ih]
    ring

lemma int_dvd_small (n : ℤ) (hn : 0 < n) (d : ℤ) (h1 : -n < d) (h2 : d < n)
    (hd : n ∣ d) : d = 0 := by
  obtain ⟨c, rfl⟩ := hd
  rcases lt_trichotomy c 0 with hc | hc | hc
  · nlinarith
  · rw [hc, mul_zero]
  · nlinarith

/-- Orthogonality of the discrete characters: the geometric sum of
`exp(2πi·j·d/n)` over `j < n` is `n` when `n ∣ d` and `0` otherwise. -/
lemma sum_exp_unit (n : Nat) (hn : 1 ≤ n) (d : ℤ) :
    ∑ j ∈ Finset.range n, Complex.exp
        ((2 * (Real.pi : ℂ) * Complex.I) * (j : ℂ) * ((d : ℤ) : ℂ) / (n : ℂ)) =
      if (n : ℤ) ∣ d then (n : ℂ) else 0 := by
  have hn0 : (n : ℂ) ≠ 0 := Nat.cast_ne_zero.mpr (by omega)
  set ζ : ℂ :=
    Complex.exp ((2 * (Real.pi : ℂ) * Complex.I) * ((d : ℤ) : ℂ) / (n : ℂ))
    with hζdef
  have hterm : ∀ j : ℕ, Complex.exp
      ((2 * (Real.pi : ℂ) * Complex.I) * (j : ℂ) * ((d : ℤ) : ℂ) / (n : ℂ)) =
        ζ ^ j := by
    intro j
    rw [hζdef, ← Complex.exp_nat_mul]
    congr 1
    ring
  rw [Finset.sum_congr rfl fun j _ => hterm j]
  by_cases hd : (n : ℤ) ∣ d
  · obtain ⟨e, he⟩ := hd
    have hζ1 : ζ = 1 := by
      rw [hζdef]
      have h : (2 * (Real.pi : ℂ) * Complex.I) * ((d : ℤ) : ℂ) / (n : ℂ) =
          ((e : ℤ) : ℂ) * (2 * (Real.pi : ℂ) * Complex.I) := by
        rw [he]
        push_cast
        field_simp
        ring
      rw [h, Complex.exp_int_mul_two_pi_mul_I]
    rw [if_pos ⟨e, he⟩, hζ1]
    simp
  · rw [if_neg hd]
    have hζn : ζ ^ n = 1 := by
      rw [hζdef, ← Complex.exp_nat_mul]
      have h : (n : ℂ) * ((2 * (Real.pi : ℂ) * Complex.I) * ((d : ℤ) : ℂ) /
          (n : ℂ)) = ((d : ℤ) : ℂ) * (2 * (Real.pi : ℂ) * Complex.I) := by
        field_simp
        ring
      rw [h, Complex.exp_int_mul_two_pi_mul_I]
    have hζ1 : ζ ≠ 1 := by
      intro hone
      rw [hζdef, Complex.exp_eq_one_iff] at hone
      obtain ⟨k, hk⟩ := hone
      rw [div_eq_iff hn0] at hk
      have h2 : (2 * (Real.pi : ℂ) * Complex.I) * ((d : ℤ) : ℂ) =
          (2 * (Real.pi : ℂ) * Complex.I) * ((k : ℂ) * (n : ℂ)) := by
        rw [hk]
        ring
      have hdk : ((d : ℤ) : ℂ) = (k : ℂ) * (n : ℂ) :=
        mul_left_cancel₀ two_pi_I_ne_zero h2
      apply hd
      refine ⟨k, ?_⟩
      have : ((d : ℤ) : ℂ) = (((n : ℤ) * k : ℤ) : ℂ) := by
        push_cast
        rw [hdk]
        ring
      exact_mod_cast this
    rw [geom_sum_eq hζ1, hζn]
    simp

lemma wexp_mul_iwexp (n j t k : Nat) :
    wexp n (j * t) * iwexp n (k * j) =
      Complex.exp ((2 * (Real.pi : ℂ) * Complex.I) * (j : ℂ) *
        ((((k : ℤ) - (t : ℤ)) : ℤ) : ℂ) / (n : ℂ)) := by
  rw [wexp, iwexp, ← Complex.exp_add]
  congr 1
  push_cast
  ring

lemma int_dvd_iff_eq (n t k : Nat) (hn : 1 ≤ n) (ht : t < n) (hk : k < n) :
    ((n : ℤ) ∣ ((k : ℤ) - (t : ℤ))) ↔ t = k := by
  constructor
  · intro h
    have h0 := int_dvd_small (n : ℤ) (by exact_mod_cast hn)
      ((k : ℤ) - (t : ℤ)) (by omega) (by omega) h
    omega
  · rintro rfl
    simp

/-- The unnormalized inverse DFT undoes the unnormalized forward DFT up to
the factor `n` (only the first `n` entries of the intermediate spectrum
matter). -/
lemma idft_dft (n : Nat) (hn : 1 ≤ n) (x y : Nat → ℂ)
    (hy : ∀ j, j < n → y j = dft n x j) (k : Nat) (hk : k < n) :
    idft n y k = (n : ℂ) * x k := by
  rw [idft]
  have step1 : ∀ j ∈ Finset.range n, y j * iwexp n (k * j) =
      ∑ t ∈ Finset.range n, x t * (wexp n (j * t) * iwexp n (k * j)) := by
    intro j hj
    rw [hy j (Finset.mem_range.mp hj), dft, Finset.sum_mul]
    exact Finset.sum_congr rfl fun t _ => by ring
  rw [Finset.sum_congr rfl step1, Finset.sum_comm]
  have step2 : ∀ t ∈ Finset.range n,
      (∑ j ∈ Finset.range n, x t * (wexp n (j * t) * iwexp n (k * j))) =
        x t * (if (n : ℤ) ∣ ((k : ℤ) - (t : ℤ)) then (n : ℂ) else 0) := by
    intro t _
    rw [← Finset.mul_sum]
    congr 1
    rw [Finset.sum_congr rfl fun j _ => wexp_mul_iwexp n j t k]
    exact sum_exp_unit n hn ((k : ℤ) - (t : ℤ))
  rw [Finset.sum_congr rfl step2, Finset.sum_eq_single k]
  · rw [if_pos (by simp), mul_comm]
  · intro t ht htk
    rw [if_neg, mul_zero]
    intro hdvd
    exact htk ((int_dvd_iff_eq n t k hn (Finset.mem_range.mp ht) hk).mp hdvd)
  · intro hk2
    exact absurd (Finset.mem_range.mpr hk) hk2

lemma wexp_wexp_iwexp (n j a b k : Nat) :
    wexp n (j * a) * wexp n (j * b) * iwexp n (k * j) =
      Complex.exp ((2 * (Real.pi : ℂ) * Complex.I) * (j : ℂ) *
        ((((k : ℤ) - (a : ℤ) - (b : ℤ)) : ℤ) : ℂ) / (n : ℂ)) := by
  rw [wexp, wexp, iwexp, ← Complex.exp_add, ← Complex.exp_add]
  congr 1
  push_cast
  ring

lemma circ_index_spec (n a k : Nat) (hn : 1 ≤ n) (ha : a < n) (hk : k < n) :
    (n + k - a) % n < n ∧
    ((n : ℤ) ∣ ((k : ℤ) - (a : ℤ) - (((n + k - a) % n : ℕ) : ℤ))) ∧
    ∀ b, b < n → ((n : ℤ) ∣ ((k : ℤ) - (a : ℤ) - (b : ℤ))) →
      b = (n + k - a) % n := by
  have hb0lt : (n + k - a) % n < n := Nat.mod_lt _ (by omega)
  have hcast : (((n + k - a) % n : ℕ) : ℤ) = ((n : ℤ) + k - a) % n := by
    push_cast [Nat.cast_sub (by omega : a ≤ n + k)]
    rfl
  have hdvd0 : (n : ℤ) ∣ (((n : ℤ) + k - a) - ((n : ℤ) + k - a) % n) := by
    have := Int.emod_add_ediv ((n : ℤ) + k - a) (n : ℤ)
    exact ⟨((n : ℤ) + k - a) / n, by omega⟩
  refine ⟨hb0lt, ?_, ?_⟩
  · rw [hcast]
    have h1 : (k : ℤ) - a - ((n : ℤ) + k - a) % n =
        (((n : ℤ) + k - a) - ((n : ℤ) + k - a) % n) - n := by ring
    rw [h1]
    exact dvd_sub hdvd0 dvd_rfl
  · intro b hb hdvd
    have hdvd1 : (n : ℤ) ∣ ((k : ℤ) - a - (((n + k - a) % n : ℕ) : ℤ)) := by
      rw [hcast]
      have h1 : (k : ℤ) - a - ((n : ℤ) + k - a) % n =
          (((n : ℤ) + k - a) - ((n : ℤ) + k - a) % n) - n := by ring
      rw [h1]
      exact dvd_sub hdvd0 dvd_rfl
    have hdiff : (n : ℤ) ∣ ((b : ℤ) - (((n + k - a) % n : ℕ) : ℤ)) := by
      have h2 := dvd_sub hdvd hdvd1
      have h3 : (k : ℤ) - a - b - ((k : ℤ) - a - (((n + k - a) % n : ℕ) : ℤ)) =
          -((b : ℤ) - (((n + k - a) % n : ℕ) : ℤ)) := by ring
      rw [h3] at h2
      exact dvd_neg.mp h2
    have h0 := int_dvd_small (n : ℤ) (by exact_mod_cast hn)
      ((b : ℤ) - (((n + k - a) % n : ℕ) : ℤ)) (by omega) (by omega) hdiff
    omega

/-- The convolution theorem at the DFT level: the unnormalized inverse DFT
of the pointwise product of two unnormalized forward DFTs is `n` times the
circular convolution. -/
lemma idft_mul_dft (n : Nat) (hn : 1 ≤ n) (x y P : Nat → ℂ)
    (hP : ∀ j, j < n → P j = dft n x j * dft n y j) (k : Nat) (hk : k < n) :
    idft n P k = (n : ℂ) * circConv n x y k := by
  rw [idft]
  have step1 : ∀ j ∈ Finset.range n, P j * iwexp n (k * j) =
      ∑ a ∈ Finset.range n, ∑ b ∈ Finset.range n,
        x a * y b * (wexp n (j * a) * wexp n (j * b) * iwexp n (k * j)) := by
    intro j hj
    rw [hP j (Finset.mem_range.mp hj), dft, dft, Finset.sum_mul_sum,
      Finset.sum_mul]
    refine Finset.sum_congr rfl fun a _ => ?_
    rw [Finset.sum_mul]
    exact Finset.sum_congr rfl fun b _ => by ring
  rw [Finset.sum_congr rfl step1, Finset.sum_comm]
  have step2 : ∀ a ∈ Finset.range n,
      (∑ j ∈ Finset.range n, ∑ b ∈ Finset.range n,
        x a * y b * (wexp n (j * a) * wexp n (j * b) * iwexp n (k * j))) =
      (n : ℂ) * (x a * y ((n + k - a) % n)) := by
    intro a ha
    rw [Finset.sum_comm]
    have inner : ∀ b ∈ Finset.range n,
        (∑ j ∈ Finset.range n,
          x a * y b * (wexp n (j * a) * wexp n (j * b) * iwexp n (k * j))) =
        x a * y b *
          (if (n : ℤ) ∣ ((k : ℤ) - (a : ℤ) - (b : ℤ)) then (n : ℂ) else 0) := by
      intro b _
      rw [← Finset.mul_sum]
      congr 1
      rw [Finset.sum_congr rfl fun j _ => wexp_wexp_iwexp n j a b k]
      exact sum_exp_unit n hn ((k : ℤ) - (a : ℤ) - (b : ℤ))
    rw [Finset.sum_congr rfl inner]
    obtain ⟨hblt, hbdvd, hbuniq⟩ :=
      circ_index_spec n a k hn (Finset.mem_range.mp ha) hk
    rw [Finset.sum_eq_single ((n + k - a) % n)]
    · rw [if_pos hbdvd]
      ring
    · intro b hb hbne
      rw [if_neg, mul_zero]
      intro hdvd
      exact hbne (hbuniq b (Finset.mem_range.mp hb) hdvd)
    · intro habs
      exact absurd (Finset.mem_range.mpr hblt) habs
  rw [Finset.sum_congr rfl step2, circConv, Finset.mul_sum]

/-! ### The Cooley-Tukey butterfly, complexified -/

lemma complex_mk_mul (a b c s : ℝ) :
    (⟨a, b⟩ : ℂ) * ⟨c, -s⟩ = ⟨a * c + b * s, -a * s + b * c⟩ := by
  apply Complex.ext <;> simp [Complex.mul_re, Complex.mul_im]

lemma cval_mk (s : St) (j : Nat) : cval s j = ⟨s.1 j, s.2 j⟩ := rfl

/-- One butterfly on the pair of real arrays is, complexly, the map
`v[j] ← v[j] + w·v[j+h]`, `v[j+h] ← v[j] - w·v[j+h]` with the twiddle
`w = exp(-2πi·k/n)` read off the trigonometric tables. -/
lemma cval_butterflyStep (n : Nat) (ct st : Nat → ℝ)
    (hct : ∀ k, ct k = Real.cos (2 * Real.pi * k / n))
    (hst : ∀ k, st k = Real.sin (2 * Real.pi * k / n))
    (h ts i t : Nat) (hh : 1 ≤ h) (s : St) (p : Nat) :
    cval (butterflyStep ct st h ts i t s) p =
      if p = i + t then cval s (i + t) + cval s (i + t + h) * wexp n (t * ts)
      else if p = i + t + h then
        cval s (i + t) - cval s (i + t + h) * wexp n (t * ts)
      else cval s p := by
  have hw : wexp n (t * ts) = ⟨ct (t * ts), -(st (t * ts))⟩ := by
    rw [wexp_mk, hct, hst]
  simp only [butterflyStep, cval_mk, Function.update_apply, hw,
    complex_mk_mul]
  split_ifs with h1 h2
  · apply Complex.ext <;> simp [Complex.add_re, Complex.add_im] <;> ring
  · apply Complex.ext <;> simp [Complex.sub_re, Complex.sub_im] <;> ring
  · rfl

/-- Partial-run invariant of the inner butterfly loop: after `T ≤ h`
iterations the first `T` offsets of both half-blocks are combined and the
rest of the state is untouched. -/
lemma cval_bfInner_partial (n : Nat) (ct st : Nat → ℝ)
    (hct : ∀ k, ct k = Real.cos (2 * Real.pi * k / n))
    (hst : ∀ k, st k = Real.sin (2 * Real.pi * k / n))
    (h ts i : Nat) (hh : 1 ≤ h) (s : St) :
    ∀ T, T ≤ h → ∀ p,
      cval (loopN (butterflyStep ct st h ts i) T s) p =
        if i ≤ p ∧ p < i + T then
          cval s p + cval s (p + h) * wexp n ((p - i) * ts)
        else if i + h ≤ p ∧ p < i + h + T then
          cval s (p - h) - cval s p * wexp n ((p - i - h) * ts)
        else cval s p := by
  intro T
  induction T with
  | zero =>
    intro _ p
    rw [loopN_zero, if_neg (by omega), if_neg (by omega)]
  | succ T ih =>
    intro hT p
    have hT1 : T ≤ h := by omega
    rw [loopN_succ]
    have ihp := ih hT1
    generalize hA : loopN (butterflyStep ct st h ts i) T s = A at ihp
    rw [cval_butterflyStep n ct st hct hst h ts i T hh A p]
    have hA1 : cval A (i + T) = cval s (i + T) := by
      rw [ihp (i + T), if_neg (by omega), if_neg (by omega)]
    have hA2 : cval A (i + T + h) = cval s (i + T + h) := by
      rw [ihp (i + T + h), if_neg (by omega), if_neg (by omega)]
    by_cases hp1 : p = i + T
    · rw [if_pos hp1, hA1, hA2, hp1, if_pos (by omega)]
      have e1 : i + T - i = T := by omega
      rw [e1]
    · rw [if_neg hp1]
      by_cases hp2 : p = i + T + h
      · rw [if_pos hp2, hA1, hA2, hp2, if_neg (by omega), if_pos (by omega)]
        have e1 : i + T + h - h = i + T := by omega
        have e2 : i + T + h - i - h = T := by omega
        rw [e1, e2]
      · rw [if_neg hp2, ihp p]
        split_ifs <;> first | rfl | omega

/-- The full inner butterfly loop combines the two halves of the block
starting at `i` and leaves everything else untouched. -/
lemma cval_bfInner (n : Nat) (ct st : Nat → ℝ)
    (hct : ∀ k, ct k = Real.cos (2 * Real.pi * k / n))
    (hst : ∀ k, st k = Real.sin (2 * Real.pi * k / n))
    (h ts i : Nat) (hh : 1 ≤ h) (s : St) (p : Nat) :
    cval (bfInner ct st h ts i s) p =
      if i ≤ p ∧ p < i + h then
        cval s p + cval s (p + h) * wexp n ((p - i) * ts)
      else if i + h ≤ p ∧ p < i + 2 * h then
        cval s (p - h) - cval s p * wexp n ((p - i - h) * ts)
      else cval s p := by
  rw [bfInner, cval_bfInner_partial n ct st hct hst h ts i hh s h le_rfl p]
  have e : i + h + h = i + 2 * h := by omega
  rw [e]

/-- Partial-run invariant of the middle loop over blocks: after `B` blocks,
all positions below `B * size` are butterflied (relative to their own
block) and the rest of the state is untouched. -/
lemma cval_bfBlocks_partial (n : Nat) (ct st : Nat → ℝ)
    (hct : ∀ k, ct k = Real.cos (2 * Real.pi * k / n))
    (hst : ∀ k, st k = Real.sin (2 * Real.pi * k / n))
    (size : Nat) (hs : 1 ≤ size / 2) (hs2 : size = 2 * (size / 2)) (s0 : St) :
    ∀ B, B ≤ n / size → ∀ p,
      cval (loopN (fun b s =>
          bfInner ct st (size / 2) (n / size) (b * size) s) B s0) p =
        if p < B * size then
          (if p % size < size / 2 then
            cval s0 p + cval s0 (p + size / 2) *
              wexp n (p % size * (n / size))
          else
            cval s0 (p - size / 2) -
              cval s0 p * wexp n ((p % size - size / 2) * (n / size)))
        else cval s0 p := by
  intro B
  induction B with
  | zero =>
    intro _ p
    rw [loopN_zero, if_neg (by omega)]
  | succ B ih =>
    intro hB p
    rw [loopN_succ]
    have ihp := ih (by omega)
    generalize hA : loopN (fun b s =>
        bfInner ct st (size / 2) (n / size) (b * size) s) B s0 = A at ihp
    show cval (bfInner ct st (size / 2) (n / size) (B * size) A) p = _
    rw [cval_bfInner n ct st hct hst (size / 2) (n / size) (B * size) hs A p]
    have hBs : (B + 1) * size = B * size + size := by ring
    have hcomm : size * B = B * size := Nat.mul_comm size B
    rw [hBs]
    by_cases hc1 : B * size ≤ p ∧ p < B * size + size / 2
    · have hmod : p % size = p - B * size := by
        have h1 : p = size * B + (p - B * size) := by omega
        conv_lhs => rw [h1]
        rw [Nat.mul_add_mod]
        exact Nat.mod_eq_of_lt (by omega)
      have hA1 : cval A p = cval s0 p := by
        rw [ihp p, if_neg (by omega)]
      have hA2 : cval A (p + size / 2) = cval s0 (p + size / 2) := by
        rw [ihp (p + size / 2), if_neg (by omega)]
      rw [if_pos hc1, hA1, hA2, if_pos (by omega), if_pos (by omega)]
      have e : p - B * size = p % size := by omega
      rw [e]
    · rw [if_neg hc1]
      by_cases hc2 : B * size + size / 2 ≤ p ∧
          p < B * size + 2 * (size / 2)
      · have hmod : p % size = p - B * size := by
          have h1 : p = size * B + (p - B * size) := by omega
          conv_lhs => rw [h1]
          rw [Nat.mul_add_mod]
          exact Nat.mod_eq_of_lt (by omega)
        have hA1 : cval A (p - size / 2) = cval s0 (p - size / 2) := by
          rw [ihp (p - size / 2), if_neg (by omega)]
        have hA2 : cval A p = cval s0 p := by
          rw [ihp p, if_neg (by omega)]
        rw [if_pos hc2, hA1, hA2, if_pos (by omega), if_neg (by omega)]
        have e : p - B * size - size / 2 = p % size - size / 2 := by omega
        rw [e]
      · rw [if_neg hc2, ihp p]
        split_ifs <;> first | rfl | omega

/-! ### The stage invariant of the radix-2 engine -/

lemma reverse_bits_two_mul (b w : Nat) :
    reverse_bits (2 * b) (w + 1) = reverse_bits b w := by
  rw [reverse_bits_succ]
  rw [Nat.mul_mod_right, Nat.mul_div_cancel_left _ (by omega : (0:Nat) < 2)]
  ring

lemma reverse_bits_two_mul_add_one (b w : Nat) :
    reverse_bits (2 * b + 1) (w + 1) = 2 ^ w + reverse_bits b w := by
  rw [reverse_bits_succ]
  have h1 : (2 * b + 1) % 2 = 1 := by omega
  have h2 : (2 * b + 1) / 2 = b := by omega
  rw [h1, h2]
  ring

lemma wexp_div (n size e : Nat) (h : size ∣ n) (hn : 1 ≤ n) :
    wexp n (e * (n / size)) = wexp size e := by
  obtain ⟨c, rfl⟩ := h
  have hsize : 1 ≤ size := by
    rcases Nat.eq_zero_or_pos size with h0 | h0
    · subst h0; simp at hn
    · omega
  have hc : 1 ≤ c := by
    rcases Nat.eq_zero_or_pos c with h0 | h0
    · subst h0; simp at hn
    · omega
  rw [Nat.mul_div_cancel_left c (by omega : 0 < size)]
  rw [wexp, wexp]
  congr 1
  have hc0 : (c : ℂ) ≠ 0 := Nat.cast_ne_zero.mpr (by omega)
  have hs0 : (size : ℂ) ≠ 0 := Nat.cast_ne_zero.mpr (by omega)
  push_cast
  field_simp
  ring

lemma sum_wexp_shift (q : Nat) (g : Nat → ℂ) (u : Nat) :
    ∑ t ∈ Finset.range (2 ^ q), g t * wexp (2 ^ q) ((2 ^ q + u) * t) =
      ∑ t ∈ Finset.range (2 ^ q), g t * wexp (2 ^ q) (u * t) := by
  refine Finset.sum_congr rfl fun t _ => ?_
  have h1 : (2 ^ q + u) * t = 2 ^ q * t + u * t := by ring
  rw [h1, wexp_add, wexp_mul_self _ _ Nat.one_le_two_pow, one_mul]

lemma wexp_succ_shift (q u : Nat) :
    wexp (2 ^ (q + 1)) (2 ^ q + u) = -wexp (2 ^ (q + 1)) u := by
  have h2 : (2:ℕ) ^ (q + 1) = 2 * 2 ^ q := by ring
  rw [wexp_add, h2, wexp_half _ Nat.one_le_two_pow]
  ring

/-- Splitting one level of the DFT sum into even and odd time indices:
the decimation-in-time identity behind one butterfly stage. -/
lemma dft_split_even_odd (L q : Nat) (hq : q + 1 ≤ L) (x : Nat → ℂ)
    (b u : Nat) :
    ∑ t ∈ Finset.range (2 ^ (q + 1)),
        x (t * 2 ^ (L - (q + 1)) + reverse_bits b (L - (q + 1))) *
          wexp (2 ^ (q + 1)) (u * t) =
      (∑ t ∈ Finset.range (2 ^ q),
        x (t * 2 ^ (L - q) + reverse_bits (2 * b) (L - q)) *
          wexp (2 ^ q) (u * t)) +
      wexp (2 ^ (q + 1)) u *
      (∑ t ∈ Finset.range (2 ^ q),
        x (t * 2 ^ (L - q) + reverse_bits (2 * b + 1) (L - q)) *
          wexp (2 ^ q) (u * t)) := by
  have hL : L - q = (L - (q + 1)) + 1 := by omega
  have h2 : (2:ℕ) ^ (q + 1) = 2 * 2 ^ q := by ring
  rw [h2, sum_range_even_odd]
  congr 1
  · refine Finset.sum_congr rfl fun t _ => ?_
    have hi : 2 * t * 2 ^ (L - (q + 1)) + reverse_bits b (L - (q + 1)) =
        t * 2 ^ (L - q) + reverse_bits (2 * b) (L - q) := by
      rw [hL, reverse_bits_two_mul, pow_succ]
      ring
    rw [hi]
    congr 1
    have hu : u * (2 * t) = 2 * (u * t) := by ring
    rw [hu, wexp_two_mul _ _ Nat.one_le_two_pow]
  · rw [Finset.mul_sum]
    refine Finset.sum_congr rfl fun t _ => ?_
    have hi : (2 * t + 1) * 2 ^ (L - (q + 1)) + reverse_bits b (L - (q + 1)) =
        t * 2 ^ (L - q) + reverse_bits (2 * b + 1) (L - q) := by
      rw [hL, reverse_bits_two_mul_add_one, pow_succ]
      ring
    rw [hi]
    have hw : wexp (2 * 2 ^ q) (u * (2 * t + 1)) =
        wexp (2 * 2 ^ q) u * wexp (2 ^ q) (u * t) := by
      have hu : u * (2 * t + 1) = 2 * (u * t) + u := by ring
      rw [hu, wexp_add, wexp_two_mul _ _ Nat.one_le_two_pow]
      ring
    rw [hw]
    ring

/-- The stage invariant: after `q` butterfly stages on the bit-reversed
input, every block of length `2^q` holds the `2^q`-point DFT of the
corresponding decimated subsequence of the input. -/
lemma cval_bfStages (L : Nat) (x : Nat → ℂ) (ct st : Nat → ℝ)
    (hct : ∀ k, ct k = Real.cos (2 * Real.pi * k / (2 ^ L : Nat)))
    (hst : ∀ k, st k = Real.sin (2 * Real.pi * k / (2 ^ L : Nat)))
    (v0 : St) (hv0 : ∀ p, p < 2 ^ L → cval v0 p = x (reverse_bits p L)) :
    ∀ q, q ≤ L → ∀ b u, b < 2 ^ (L - q) → u < 2 ^ q →
      cval (loopN (fun w s => bfBlocks ct st (2 ^ L) (2 ^ (w + 1)) s) q v0)
          (b * 2 ^ q + u) =
        ∑ t ∈ Finset.range (2 ^ q),
          x (t * 2 ^ (L - q) + reverse_bits b (L - q)) *
            wexp (2 ^ q) (u * t) := by
  intro q
  induction q with
  | zero =>
    intro _ b u hb hu
    rw [loopN_zero]
    have hu0 : u = 0 := by omega
    subst hu0
    simp only [pow_zero, Nat.sub_zero, Nat.mul_one, Nat.add_zero]
    rw [Finset.sum_range_one]
    simp only [Nat.zero_mul, Nat.zero_add]
    rw [hv0 b (by simpa using hb), wexp_zero, mul_one]
  | succ q ih =>
    intro hq b u hb hu
    have hq1 : q ≤ L := by omega
    rw [loopN_succ]
    have ihp := ih hq1
    generalize hA : loopN (fun w s =>
        bfBlocks ct st (2 ^ L) (2 ^ (w + 1)) s) q v0 = A at ihp
    show cval (bfBlocks ct st (2 ^ L) (2 ^ (q + 1)) A) (b * 2 ^ (q + 1) + u)
      = _
    have hsize2 : (2:ℕ) ^ (q + 1) = 2 * 2 ^ q := by ring
    have hhalf : (2:ℕ) ^ (q + 1) / 2 = 2 ^ q := by
      rw [hsize2, Nat.mul_div_cancel_left _ (by omega : (0:Nat) < 2)]
    have hdvd : (2:ℕ) ^ (q + 1) ∣ 2 ^ L := pow_dvd_pow 2 (by omega)
    have hmul : (2:ℕ) ^ (L - (q + 1)) * 2 ^ (q + 1) = 2 ^ L := by
      rw [← pow_add]
      congr 1
      omega
    have hdiv : (2:ℕ) ^ L / 2 ^ (q + 1) = 2 ^ (L - (q + 1)) :=
      Nat.pow_div (by omega) (by omega)
    have hLq : L - q = (L - (q + 1)) + 1 := by omega
    have hpow1 : (2:ℕ) ^ (L - q) = 2 ^ (L - (q + 1)) * 2 := by
      rw [hLq, pow_succ]
    have hb2 : 2 * b < 2 ^ (L - q) := by rw [hpow1]; omega
    have hb21 : 2 * b + 1 < 2 ^ (L - q) := by
      rw [hpow1]
      omega
    have hple : b * 2 ^ (q + 1) + u < 2 ^ L := by
      have e1 : (b + 1) * 2 ^ (q + 1) = b * 2 ^ (q + 1) + 2 ^ (q + 1) := by
        ring
      have h2 : (b + 1) * 2 ^ (q + 1) ≤ 2 ^ (L - (q + 1)) * 2 ^ (q + 1) :=
        Nat.mul_le_mul_right _ (by omega)
      rw [hmul] at h2
      omega
    have hmod : (b * 2 ^ (q + 1) + u) % 2 ^ (q + 1) = u := by
      have e1 : b * 2 ^ (q + 1) = 2 ^ (q + 1) * b := by ring
      rw [e1, Nat.mul_add_mod]
      exact Nat.mod_eq_of_lt hu
    rw [bfBlocks]
    have hblocks := cval_bfBlocks_partial (2 ^ L) ct st hct hst (2 ^ (q + 1))
      (by rw [hhalf]; exact Nat.one_le_two_pow)
      (by rw [hhalf, ← hsize2]) A (2 ^ L / 2 ^ (q + 1)) le_rfl
      (b * 2 ^ (q + 1) + u)
    rw [hblocks, hdiv, hmul, if_pos hple, hmod, hhalf]
    have htw : ∀ e : Nat, wexp (2 ^ L) (e * 2 ^ (L - (q + 1))) =
        wexp (2 ^ (q + 1)) e := by
      intro e
      rw [← hdiv]
      exact wexp_div (2 ^ L) (2 ^ (q + 1)) e hdvd Nat.one_le_two_pow
    rw [dft_split_even_odd L q hq x b u]
    by_cases hu1 : u < 2 ^ q
    · rw [if_pos hu1]
      have hp1 : b * 2 ^ (q + 1) + u = 2 * b * 2 ^ q + u := by
        rw [hsize2]
        ring
      have hp2 : 2 * b * 2 ^ q + u + 2 ^ q = (2 * b + 1) * 2 ^ q + u := by
        ring
      rw [hp1, hp2, ihp (2 * b) u hb2 hu1, ihp (2 * b + 1) u hb21 hu1,
        htw u]
      ring
    · rw [if_neg hu1]
      obtain ⟨w, rfl⟩ : ∃ w, u = 2 ^ q + w := ⟨u - 2 ^ q, by omega⟩
      have hw : w < 2 ^ q := by
        rw [hsize2] at hu
        omega
      have hsub : 2 ^ q + w - 2 ^ q = w := by omega
      have hp1 : b * 2 ^ (q + 1) + (2 ^ q + w) - 2 ^ q =
          2 * b * 2 ^ q + w := by
        rw [hsize2]
        have e : b * (2 * 2 ^ q) = 2 * b * 2 ^ q := by ring
        omega
      have hp2 : b * 2 ^ (q + 1) + (2 ^ q + w) =
          (2 * b + 1) * 2 ^ q + w := by
        rw [hsize2]
        have e1 : b * (2 * 2 ^ q) = 2 * b * 2 ^ q := by ring
        have e2 : (2 * b + 1) * 2 ^ q = 2 * b * 2 ^ q + 2 ^ q := by ring
        omega
      rw [hsub, hp1, ihp (2 * b) w hb2 hw, hp2, ihp (2 * b + 1) w hb21 hw,
        htw w]
      rw [sum_wexp_shift q
          (fun t => x (t * 2 ^ (L - q) + reverse_bits (2 * b) (L - q))) w,
        sum_wexp_shift q
          (fun t => x (t * 2 ^ (L - q) + reverse_bits (2 * b + 1) (L - q))) w,
        wexp_succ_shift q w]
      ring


/-- Functional correctness of the radix-2 engine: on success, the two
arrays hold the unnormalized forward DFT of the input. -/
lemma transform_radix2_dft (re im : Nat → ℝ) (n : Nat) (s2 : St)
    (h : transform_radix2 re im n = some s2) :
    ∀ k, k < n → cval s2 k = dft n (cval (re, im)) k := by
  rw [transform_radix2_eq] at h
  by_cases h1 : 2 ^ floor_log2 n ≠ n
  · rw [if_pos h1] at h
    exact absurd h (by simp)
  · rw [if_neg h1] at h
    by_cases h2 : SIZE_MAX / sizeof_double < n / 2
    · rw [if_pos h2] at h
      exact absurd h (by simp)
    · rw [if_neg h2] at h
      rw [not_not] at h1
      have hs2 : s2 = bfStages (fun i => Real.cos (2 * Real.pi * i / n))
          (fun i => Real.sin (2 * Real.pi * i / n)) n (floor_log2 n)
          (loopN (brSwap (floor_log2 n)) n (re, im)) := (Option.some.inj h).symm
      obtain ⟨L, rfl⟩ : ∃ L, n = 2 ^ L := ⟨floor_log2 n, h1.symm⟩
      rw [floor_log2_two_pow] at hs2
      intro k hk
      have hv0 : ∀ p, p < 2 ^ L →
          cval (loopN (brSwap L) (2 ^ L) (re, im)) p =
            cval (re, im) (reverse_bits p L) := by
        intro p hp
        rw [cval_mk, (brPass_spec L (re, im) p hp).1,
          (brPass_spec L (re, im) p hp).2]
        rfl
      have hrw := cval_bfStages L (cval (re, im))
        (fun i => Real.cos (2 * Real.pi * i / (2 ^ L : Nat)))
        (fun i => Real.sin (2 * Real.pi * i / (2 ^ L : Nat)))
        (fun _ => rfl) (fun _ => rfl)
        (loopN (brSwap L) (2 ^ L) (re, im)) hv0 L le_rfl 0 k
        (by simpa using Nat.one_pos) (by simpa using hk)
      rw [Nat.zero_mul, Nat.zero_add] at hrw
      rw [hs2, bfStages, hrw, dft]
      refine Finset.sum_congr rfl fun t _ => ?_
      congr 1
      rw [Nat.sub_self, pow_zero, Nat.mul_one]
      rfl

/-! ### Correctness of the complex convolution engine on power-of-two
lengths -/

lemma conj_wexp (m e : Nat) : (starRingEnd ℂ) (wexp m e) = iwexp m e := by
  rw [wexp, iwexp, ← Complex.exp_conj]
  congr 1
  simp [map_div₀, map_mul, map_neg, map_ofNat, Complex.conj_I,
    Complex.conj_ofReal]

lemma I_mul_conj_mk (a b : ℝ) :
    Complex.I * (starRingEnd ℂ) (⟨a, b⟩ : ℂ) = ⟨b, a⟩ := by
  apply Complex.ext <;> simp

lemma inv_mul_mk (n : ℕ) (a b : ℝ) :
    ((n : ℂ))⁻¹ * ⟨a, b⟩ = ⟨a / n, b / n⟩ := by
  rcases Nat.eq_zero_or_pos n with h0 | h0
  · subst h0
    apply Complex.ext <;> simp
  · have hn0 : (n : ℝ) ≠ 0 := Nat.cast_ne_zero.mpr (by omega)
    apply Complex.ext <;>
      simp [Complex.mul_re, Complex.mul_im, division_def] <;>
      field_simp <;> ring

lemma transform_radix2_some_iff (re im : Nat → ℝ) (n : Nat)
    (h : ∃ k, n = 2 ^ k) (hg : ¬ SIZE_MAX / sizeof_double < n / 2) :
    ∃ a b, transform_radix2 re im n = some (a, b) ∧
      ∀ k, k < n → cval (a, b) k = dft n (cval (re, im)) k := by
  cases hcase : transform_radix2 re im n with
  | none =>
    rw [transform_radix2_none_iff re im n h] at hcase
    exact absurd hcase hg
  | some s2 =>
    obtain ⟨a, b⟩ := s2
    exact ⟨a, b, rfl, fun k hk => transform_radix2_dft re im n (a, b) hcase k hk⟩

/-- On a power-of-two length within the size guard, `transformF` with any
positive budget succeeds and computes the unnormalized forward DFT. -/
lemma transformF_pow2_spec (fuel : Nat) (re im : Nat → ℝ) (n : Nat)
    (hpow : ∃ k, n = 2 ^ k) (hg : ¬ SIZE_MAX / sizeof_double < n / 2) :
    ∃ a b, transformF (fuel + 1) re im n = some (a, b) ∧
      ∀ k, k < n → cval (a, b) k = dft n (cval (re, im)) k := by
  have hn1 : 1 ≤ n := by
    obtain ⟨k, rfl⟩ := hpow
    exact Nat.one_le_two_pow
  rw [transformF_pow2 fuel re im n hn1 hpow]
  exact transform_radix2_some_iff re im n hpow hg

lemma I_conj_dft (n : Nat) (z W : Nat → ℂ)
    (hz : ∀ j, j < n → z j = ⟨(W j).im, (W j).re⟩) (k : Nat) :
    Complex.I * (starRingEnd ℂ) (dft n z k) = idft n W k := by
  rw [dft, idft, map_sum, Finset.mul_sum]
  refine Finset.sum_congr rfl fun j hj => ?_
  rw [map_mul, conj_wexp, hz j (Finset.mem_range.mp hj), ← mul_assoc]
  congr 1
  rw [I_mul_conj_mk]

/-- Functional correctness of `convolve_complex` on a power-of-two length:
it succeeds and returns exactly the circular convolution (the final `1/n`
rescale cancelling the `n` produced by the unnormalized transform pair). -/
lemma convolve_complexF_pow2_spec (fuel : Nat) (xr xi yr yi : Nat → ℝ)
    (n : Nat) (hpow : ∃ k, n = 2 ^ k)
    (hg : ¬ SIZE_MAX / sizeof_double < n) :
    ∃ outr outi,
      convolve_complexF (fuel + 1) xr xi yr yi n = some (outr, outi) ∧
      ∀ k, k < n → cval (outr, outi) k =
        circConv n (cval (xr, xi)) (cval (yr, yi)) k := by
  have hn1 : 1 ≤ n := by
    obtain ⟨k, rfl⟩ := hpow
    exact Nat.one_le_two_pow
  have hg2 : ¬ SIZE_MAX / sizeof_double < n / 2 := by omega
  obtain ⟨X1, X2, hXeq, hXval⟩ := transformF_pow2_spec fuel xr xi n hpow hg2
  obtain ⟨Y1, Y2, hYeq, hYval⟩ := transformF_pow2_spec fuel yr yi n hpow hg2
  obtain ⟨B1, B2, hBeq, hBval⟩ := transformF_pow2_spec fuel
    (fun i => if i < n then X2 i * Y1 i + X1 i * Y2 i else X2 i)
    (fun i => if i < n then X1 i * Y1 i - X2 i * Y2 i else X1 i)
    n hpow hg2
  refine ⟨fun i => if i < n then B2 i / n else 0,
    fun i => if i < n then B1 i / n else 0, ?_, ?_⟩
  · simp only [convolve_complexF, if_neg hg, hXeq, hYeq, hBeq]
  · intro k hk
    have hout : cval (fun i => if i < n then B2 i / n else 0,
        fun i => if i < n then B1 i / n else 0) k =
          ((n : ℂ))⁻¹ * (Complex.I * (starRingEnd ℂ) (cval (B1, B2) k)) := by
      rw [cval_mk, cval_mk, I_mul_conj_mk, inv_mul_mk]
      simp only [if_pos hk]
    rw [hout, hBval k hk]
    have hz : ∀ j, j < n →
        cval (fun i => if i < n then X2 i * Y1 i + X1 i * Y2 i else X2 i,
          fun i => if i < n then X1 i * Y1 i - X2 i * Y2 i else X1 i) j =
        ⟨((fun p => cval (X1, X2) p * cval (Y1, Y2) p) j).im,
          ((fun p => cval (X1, X2) p * cval (Y1, Y2) p) j).re⟩ := by
      intro j hj
      rw [cval_mk]
      simp only [if_pos hj]
      apply Complex.ext <;>
        simp [cval_mk, Complex.mul_re, Complex.mul_im] <;> ring
    rw [I_conj_dft n _ (fun p => cval (X1, X2) p * cval (Y1, Y2) p) hz k]
    have hP : ∀ j, j < n → (fun p => cval (X1, X2) p * cval (Y1, Y2) p) j =
        dft n (cval (xr, xi)) j * dft n (cval (yr, yi)) j := by
      intro j hj
      simp only []
      rw [hXval j hj, hYval j hj]
    rw [idft_mul_dft n hn1 (cval (xr, xi)) (cval (yr, yi)) _ hP k hk]
    have hn0 : (n : ℂ) ≠ 0 := Nat.cast_ne_zero.mpr (by omega)
    field_simp

/-! ### The Bluestein chirp algebra -/

lemma exp_real_mul_I (θ : ℝ) :
    Complex.exp ((θ : ℂ) * Complex.I) = ⟨Real.cos θ, Real.sin θ⟩ := by
  rw [Complex.exp_mul_I, ← Complex.ofReal_cos, ← Complex.ofReal_sin,
    Complex.mk_eq_add_mul_I]

/-- In the wrap-free regime (`i·i` and `n·2` both below `2^64`), the
reduction of `i*i` modulo `2n` in the chirp tables is invisible after
exponentiation: the chirp is exactly `exp(iπ·i²/n)`. -/
lemma chirp_eq (n i : Nat) (hn : 1 ≤ n) (hii : i * i < 2 ^ 64)
    (h2n : n * 2 < 2 ^ 64) :
    chirp n i =
      Complex.exp (((Real.pi * (i * i) / n : ℝ) : ℂ) * Complex.I) := by
  have hm1 : i * i % 2 ^ 64 = i * i := Nat.mod_eq_of_lt hii
  have hm2 : n * 2 % 2 ^ 64 = n * 2 := Nat.mod_eq_of_lt h2n
  have hq : n * 2 * (i * i / (n * 2)) + i * i % (n * 2) = i * i :=
    Nat.div_add_mod (i * i) (n * 2)
  have hr : chirp n i = Complex.exp
      (((Real.pi * ((i * i % (n * 2) : ℕ) : ℝ) / n : ℝ) : ℂ) *
        Complex.I) := by
    rw [chirp, exp_real_mul_I]
    simp only [chirp_cos, chirp_sin, hm1, hm2]
  rw [hr]
  have hc : ((i * i : ℕ) : ℝ) =
      (n * 2 : ℕ) * ((i * i / (n * 2) : ℕ) : ℝ) +
        ((i * i % (n * 2) : ℕ) : ℝ) := by
    exact_mod_cast hq.symm
  have hreal : Real.pi * (i * i) / n =
      Real.pi * ((i * i % (n * 2) : ℕ) : ℝ) / n +
        ((i * i / (n * 2) : ℕ) : ℝ) * (2 * Real.pi) := by
    have hn0 : (n : ℝ) ≠ 0 := Nat.cast_ne_zero.mpr (by omega)
    field_simp
    push_cast at hc ⊢
    linear_combination Real.pi * hc
  have hang : ((Real.pi * (i * i) / n : ℝ) : ℂ) * Complex.I =
      ((Real.pi * ((i * i % (n * 2) : ℕ) : ℝ) / n : ℝ) : ℂ) * Complex.I +
        ((i * i / (n * 2) : ℕ) : ℂ) * (2 * (Real.pi : ℂ) * Complex.I) := by
    rw [hreal]
    push_cast
    ring
  rw [hang, Complex.exp_add]
  have h1 : Complex.exp (((i * i / (n * 2) : ℕ) : ℂ) *
      (2 * (Real.pi : ℂ) * Complex.I)) = 1 := by
    have := Complex.exp_int_mul_two_pi_mul_I ((i * i / (n * 2) : ℕ) : ℤ)
    simpa using this
  rw [h1, mul_one]

lemma wexp_real_form (m e : Nat) :
    wexp m e =
      Complex.exp (((-(2 * Real.pi * e / m) : ℝ) : ℂ) * Complex.I) := by
  rw [wexp]
  congr 1
  push_cast
  ring

lemma conj_exp_real_mul_I (θ : ℝ) :
    (starRingEnd ℂ) (Complex.exp ((θ : ℂ) * Complex.I)) =
      Complex.exp (((-θ : ℝ) : ℂ) * Complex.I) := by
  rw [← Complex.exp_conj]
  congr 1
  rw [map_mul, Complex.conj_I, Complex.conj_ofReal]
  push_cast
  ring

/-- The heart of Bluestein: `kj = (k² + j² - (k-j)²)/2`, so the product of
the two conjugate chirps at `k` and `j` and the chirp at the distance
`|k - j|` collapses to the forward DFT twiddle `exp(-2πi·kj/n)`. -/
lemma chirp_mul_identity (n d j k : Nat) (hn : 1 ≤ n) (hn32 : n ≤ 2 ^ 32)
    (hdn : d < n) (hjn : j < n) (hkn : k < n)
    (hd : (d : ℤ) * d = ((k : ℤ) - j) * ((k : ℤ) - j)) :
    (starRingEnd ℂ) (chirp n k) *
      ((starRingEnd ℂ) (chirp n j) * chirp n d) = wexp n (k * j) := by
  have hn0 : (n : ℝ) ≠ 0 := Nat.cast_ne_zero.mpr (by omega)
  have hsq : ∀ a : Nat, a < n → a * a < 2 ^ 64 := by
    intro a ha
    have h1 : a ≤ 2 ^ 32 - 1 := by omega
    calc a * a ≤ (2 ^ 32 - 1) * (2 ^ 32 - 1) := Nat.mul_le_mul h1 h1
      _ < 2 ^ 64 := by norm_num
  have h2n : n * 2 < 2 ^ 64 := by
    calc n * 2 ≤ 2 ^ 32 * 2 := by omega
      _ < 2 ^ 64 := by norm_num
  rw [chirp_eq n k hn (hsq k hkn) h2n, chirp_eq n j hn (hsq j hjn) h2n,
    chirp_eq n d hn (hsq d hdn) h2n,
    conj_exp_real_mul_I, conj_exp_real_mul_I, wexp_real_form,
    ← Complex.exp_add, ← Complex.exp_add]
  congr 1
  have hdR : (d : ℝ) * d = ((k : ℝ) - j) * ((k : ℝ) - j) := by
    exact_mod_cast hd
  have hreal : -(Real.pi * (k * k) / n) + (-(Real.pi * (j * j) / n) +
      Real.pi * (d * d) / n) = -(2 * Real.pi * (k * j) / n) := by
    linear_combination (Real.pi / (n : ℝ)) * hdR
  have hrealC := congrArg (fun r : ℝ => (r : ℂ)) hreal
  push_cast at hrealC ⊢
  linear_combination hrealC * Complex.I

lemma conj_chirp (n i : Nat) :
    (starRingEnd ℂ) (chirp n i) = ⟨chirp_cos n i, -(chirp_sin n i)⟩ := by
  rw [chirp]
  apply Complex.ext <;> simp

lemma bluestein_b_cval_lt (n m d : Nat) (hmn : 2 * n + 1 ≤ m) (hd : d < n) :
    cval (bluestein_b (chirp_cos n) m n, bluestein_b (chirp_sin n) m n) d =
      chirp n d := by
  obtain ⟨hc0, hci, _⟩ := bluestein_b_closed (chirp_cos n) m n hmn
  obtain ⟨hs0, hsi, _⟩ := bluestein_b_closed (chirp_sin n) m n hmn
  rw [cval_mk, chirp]
  dsimp only
  rcases Nat.eq_zero_or_pos d with h0 | h0
  · subst h0
    rw [hc0, hs0]
  · rw [(hci d h0 hd).1, (hsi d h0 hd).1]

lemma bluestein_b_cval_mirror (n m d : Nat) (hmn : 2 * n + 1 ≤ m)
    (hd1 : 1 ≤ d) (hd : d < n) :
    cval (bluestein_b (chirp_cos n) m n, bluestein_b (chirp_sin n) m n)
        (m - d) = chirp n d := by
  obtain ⟨hc0, hci, _⟩ := bluestein_b_closed (chirp_cos n) m n hmn
  obtain ⟨hs0, hsi, _⟩ := bluestein_b_closed (chirp_sin n) m n hmn
  rw [cval_mk, chirp]
  dsimp only
  rw [(hci d hd1 hd).2, (hsi d hd1 hd).2]

/-- Functional correctness of the Bluestein adapter in the wrap-free
regime `n ≤ 2^32` (where the 64-bit products building the chirp tables
cannot overflow): on success, the two arrays hold the unnormalized
forward DFT of the input. -/
lemma transform_bluesteinF_dft (fuel : Nat) (re im : Nat → ℝ) (n : Nat)
    (hn : 1 ≤ n) (hn32 : n ≤ 2 ^ 32) (s2 : St)
    (h : transform_bluesteinF (fuel + 1) re im n = some s2) :
    ∀ k, k < n → cval s2 k = dft n (cval (re, im)) k := by
  rw [transform_bluesteinF] at h
  by_cases hg1 : n > (SIZE_MAX - 1) / 2
  · rw [if_pos hg1] at h
    exact absurd h (by simp)
  rw [if_neg hg1] at h
  cases hfm : find_m (n * 2 + 1) with
  | none =>
    rw [hfm] at h
    exact absurd h (by simp)
  | some m =>
    obtain ⟨hmp, hmge, hmmin⟩ := find_m_some_spec (n * 2 + 1) m hfm
    have hmn : 2 * n + 1 ≤ m := by omega
    simp only [hfm] at h
    by_cases hg2 : SIZE_MAX / sizeof_double < n ∨ SIZE_MAX / sizeof_double < m
    · rw [if_pos hg2] at h
      exact absurd h (by simp)
    rw [if_neg hg2] at h
    have hgm : ¬ SIZE_MAX / sizeof_double < m := fun hc => hg2 (Or.inr hc)
    obtain ⟨outr, outi, hconv, hcval⟩ := convolve_complexF_pow2_spec fuel
      (fun i => if i < n then re i * chirp_cos n i + im i * chirp_sin n i
        else 0)
      (fun i => if i < n then -(re i) * chirp_sin n i + im i * chirp_cos n i
        else 0)
      (bluestein_b (chirp_cos n) m n) (bluestein_b (chirp_sin n) m n) m
      hmp hgm
    simp only [hconv] at h
    have hs2 := (Option.some.inj h).symm
    intro k hk
    rw [hs2, cval_mk]
    simp only [if_pos hk]
    have hpost : (⟨outr k * chirp_cos n k + outi k * chirp_sin n k,
        -(outr k) * chirp_sin n k + outi k * chirp_cos n k⟩ : ℂ) =
        cval (outr, outi) k * (starRingEnd ℂ) (chirp n k) := by
      rw [conj_chirp, cval_mk, complex_mk_mul]
    rw [hpost, hcval k (by omega), circConv]
    have hvanish : ∀ j ∈ Finset.range m, j ∉ Finset.range n →
        cval (fun i => if i < n then
            re i * chirp_cos n i + im i * chirp_sin n i else 0,
          fun i => if i < n then
            -(re i) * chirp_sin n i + im i * chirp_cos n i else 0) j *
          cval (bluestein_b (chirp_cos n) m n,
            bluestein_b (chirp_sin n) m n) ((m + k - j) % m) = 0 := by
      intro j _ hjn
      have hjge : ¬ j < n := by simpa using hjn
      rw [cval_mk]
      simp only [if_neg hjge]
      have hzero : (⟨0, 0⟩ : ℂ) = 0 := by
        apply Complex.ext <;> simp
      rw [hzero, zero_mul]
    rw [← Finset.sum_subset (Finset.range_subset.mpr (by omega : n ≤ m))
      hvanish, Finset.sum_mul, dft]
    refine Finset.sum_congr rfl fun j hj => ?_
    have hjn := Finset.mem_range.mp hj
    have ha : cval (fun i => if i < n then
        re i * chirp_cos n i + im i * chirp_sin n i else 0,
      fun i => if i < n then
        -(re i) * chirp_sin n i + im i * chirp_cos n i else 0) j =
        cval (re, im) j * (starRingEnd ℂ) (chirp n j) := by
      rw [cval_mk]
      simp only [if_pos hjn]
      rw [conj_chirp, cval_mk, complex_mk_mul]
    rcases le_or_lt j k with hjk | hjk
    · have hidx : (m + k - j) % m = k - j := by
        have h1 : m + k - j = m + (k - j) := by omega
        rw [h1, Nat.add_mod_left]
        exact Nat.mod_eq_of_lt (by omega)
      rw [hidx, ha, bluestein_b_cval_lt n m (k - j) hmn (by omega)]
      have hcast : ((k - j : ℕ) : ℤ) = (k : ℤ) - j := by omega
      have hcombine := chirp_mul_identity n (k - j) j k hn hn32
        (by omega) hjn hk (by rw [hcast])
      calc cval (re, im) j * (starRingEnd ℂ) (chirp n j) *
            chirp n (k - j) * (starRingEnd ℂ) (chirp n k)
          = cval (re, im) j * ((starRingEnd ℂ) (chirp n k) *
              ((starRingEnd ℂ) (chirp n j) * chirp n (k - j))) := by ring
        _ = cval (re, im) j * wexp n (k * j) := by rw [hcombine]
    · have hidx : (m + k - j) % m = m - (j - k) := by
        have h1 : m + k - j = m - (j - k) := by omega
        rw [h1]
        exact Nat.mod_eq_of_lt (by omega)
      rw [hidx, ha, bluestein_b_cval_mirror n m (j - k) hmn (by omega)
        (by omega)]
      have hcast : ((j - k : ℕ) : ℤ) = (j : ℤ) - k := by omega
      have hcombine := chirp_mul_identity n (j - k) j k hn hn32
        (by omega) hjn hk (by rw [hcast]; ring)
      calc cval (re, im) j * (starRingEnd ℂ) (chirp n j) *
            chirp n (j - k) * (starRingEnd ℂ) (chirp n k)
          = cval (re, im) j * ((starRingEnd ℂ) (chirp n k) *
              ((starRingEnd ℂ) (chirp n j) * chirp n (j - k))) := by ring
        _ = cval (re, im) j * wexp n (k * j) := by rw [hcombine]

/-! ### Full correctness of the dispatcher and of convolution -/

/-- Functional correctness of `transform` for any budget `≥ 2`: on success
the result is the unnormalized forward DFT, for every length `n ≥ 1` that
is a power of two (radix-2 path) or at most `2^32` (where the Bluestein
chirp tables are wrap-free). -/
lemma transformF_dft (fuel : Nat) (re im : Nat → ℝ) (n : Nat) (hn : 1 ≤ n)
    (hok : n ≤ 2 ^ 32 ∨ ∃ k, n = 2 ^ k)
    (s2 : St) (h : transformF (fuel + 2) re im n = some s2) :
    ∀ k, k < n → cval s2 k = dft n (cval (re, im)) k := by
  by_cases hpow : ∃ k, n = 2 ^ k
  · rw [show fuel + 2 = (fuel + 1) + 1 from rfl,
      transformF_pow2 (fuel + 1) re im n hn hpow] at h
    exact transform_radix2_dft re im n s2 h
  · rw [show fuel + 2 = (fuel + 1) + 1 from rfl,
      transformF_not_pow2 (fuel + 1) re im n hn hpow] at h
    exact transform_bluesteinF_dft fuel re im n hn
      (hok.resolve_right hpow) s2 h

lemma transform_dft (re im : Nat → ℝ) (n : Nat) (hn : 1 ≤ n)
    (hok : n ≤ 2 ^ 32 ∨ ∃ k, n = 2 ^ k) (s2 : St)
    (h : transform re im n = some s2) :
    ∀ k, k < n → cval s2 k = dft n (cval (re, im)) k :=
  transformF_dft 0 re im n hn hok s2 h

/-- The common postprocessing step of `convolve_complex`: given correct
spectra for the two operands and for the inverse-transformed pointwise
product, the rescaled output is exactly the circular convolution. -/
lemma convolve_post_value (n : Nat) (hn : 1 ≤ n)
    (xr xi yr yi X1 X2 Y1 Y2 B1 B2 : Nat → ℝ)
    (hXval : ∀ k, k < n → cval (X1, X2) k = dft n (cval (xr, xi)) k)
    (hYval : ∀ k, k < n → cval (Y1, Y2) k = dft n (cval (yr, yi)) k)
    (hBval : ∀ k, k < n → cval (B1, B2) k = dft n
      (cval (fun i => if i < n then X2 i * Y1 i + X1 i * Y2 i else X2 i,
        fun i => if i < n then X1 i * Y1 i - X2 i * Y2 i else X1 i)) k)
    (k : Nat) (hk : k < n) :
    cval (fun i => if i < n then B2 i / n else 0,
        fun i => if i < n then B1 i / n else 0) k =
      circConv n (cval (xr, xi)) (cval (yr, yi)) k := by
  have hout : cval (fun i => if i < n then B2 i / n else 0,
      fun i => if i < n then B1 i / n else 0) k =
        ((n : ℂ))⁻¹ * (Complex.I * (starRingEnd ℂ) (cval (B1, B2) k)) := by
    rw [cval_mk, cval_mk, I_mul_conj_mk, inv_mul_mk]
    simp only [if_pos hk]
  rw [hout, hBval k hk]
  have hz : ∀ j, j < n →
      cval (fun i => if i < n then X2 i * Y1 i + X1 i * Y2 i else X2 i,
        fun i => if i < n then X1 i * Y1 i - X2 i * Y2 i else X1 i) j =
      ⟨((fun p => cval (X1, X2) p * cval (Y1, Y2) p) j).im,
        ((fun p => cval (X1, X2) p * cval (Y1, Y2) p) j).re⟩ := by
    intro j hj
    rw [cval_mk]
    simp only [if_pos hj]
    apply Complex.ext <;>
      simp [cval_mk, Complex.mul_re, Complex.mul_im] <;> ring
  rw [I_conj_dft n _ (fun p => cval (X1, X2) p * cval (Y1, Y2) p) hz k]
  have hP : ∀ j, j < n → (fun p => cval (X1, X2) p * cval (Y1, Y2) p) j =
      dft n (cval (xr, xi)) j * dft n (cval (yr, yi)) j := by
    intro j hj
    simp only []
    rw [hXval j hj, hYval j hj]
  rw [idft_mul_dft n hn (cval (xr, xi)) (cval (yr, yi)) _ hP k hk]
  have hn0 : (n : ℂ) ≠ 0 := Nat.cast_ne_zero.mpr (by omega)
  field_simp

/-- Functional correctness of `convolve_complex` for every length `n ≥ 1`
that is a power of two or at most `2^32` (the regime in which the inner
transforms are wrap-free): on success the output is exactly the circular
convolution of the operands. -/
lemma convolve_complexF_spec (fuel : Nat) (xr xi yr yi outr outi : Nat → ℝ)
    (n : Nat) (hn : 1 ≤ n) (hok : n ≤ 2 ^ 32 ∨ ∃ k, n = 2 ^ k)
    (h : convolve_complexF (fuel + 2) xr xi yr yi n = some (outr, outi)) :
    ∀ k, k < n → cval (outr, outi) k =
      circConv n (cval (xr, xi)) (cval (yr, yi)) k := by
  rw [convolve_complexF] at h
  by_cases hg : SIZE_MAX / sizeof_double < n
  · rw [if_pos hg] at h
    exact absurd h (by simp)
  rw [if_neg hg] at h
  cases hx : transformF (fuel + 2) xr xi n with
  | none =>
    rw [hx] at h
    exact absurd h (by simp)
  | some X =>
    obtain ⟨X1, X2⟩ := X
    simp only [hx] at h
    cases hy : transformF (fuel + 2) yr yi n with
    | none =>
      rw [hy] at h
      exact absurd h (by simp)
    | some Y =>
      obtain ⟨Y1, Y2⟩ := Y
      simp only [hy] at h
      cases hb : transformF (fuel + 2)
          (fun i => if i < n then X2 i * Y1 i + X1 i * Y2 i else X2 i)
          (fun i => if i < n then X1 i * Y1 i - X2 i * Y2 i else X1 i) n with
      | none =>
        rw [hb] at h
        exact absurd h (by simp)
      | some B =>
        obtain ⟨B1, B2⟩ := B
        simp only [hb] at h
        obtain ⟨houtr, houti⟩ := Prod.mk.injEq .. ▸ Option.some.inj h
        subst houtr
        subst houti
        exact fun k hk => convolve_post_value n hn xr xi yr yi X1 X2 Y1 Y2
          B1 B2
          (transformF_dft fuel xr xi n hn hok (X1, X2) hx)
          (transformF_dft fuel yr yi n hn hok (Y1, Y2) hy)
          (transformF_dft fuel _ _ n hn hok (B1, B2) hb) k hk

/-! ### Concrete evaluations at small lengths, for the witnesses -/

/-- `transform` at length 1 succeeds and leaves both arrays untouched
(the bit-reversal pass and the butterfly stages are both empty). -/
lemma transform_one (re im : Nat → ℝ) : transform re im 1 = some (re, im) := by
  have h2 : transform re im 1 = transform_radix2 re im 1 :=
    transformF_pow2 1 re im 1 (le_refl 1) ⟨0, rfl⟩
  have hfl : floor_log2 1 = 0 := by rw [floor_log2]; norm_num
  rw [h2, transform_radix2_eq, hfl]
  norm_num [SIZE_MAX, sizeof_double]
  rfl

/-- `convolve_complex` at length 1 succeeds: both inner transforms are
identities, so the output is the rescaled pointwise product. -/
lemma convolve_complex_one (xr xi yr yi : Nat → ℝ) :
    convolve_complex xr xi yr yi 1 =
      some (fun i => if i < 1 then
          (if i < 1 then xr i * yr i - xi i * yi i else xr i) / ((1 : Nat) : ℝ)
        else 0,
        fun i => if i < 1 then
          (if i < 1 then xi i * yr i + xr i * yi i else xi i) / ((1 : Nat) : ℝ)
        else 0) := by
  have h1 : transformF 2 xr xi 1 = some (xr, xi) := transform_one xr xi
  have h2 : transformF 2 yr yi 1 = some (yr, yi) := transform_one yr yi
  have h3 : transformF 2
      (fun i => if i < 1 then xi i * yr i + xr i * yi i else xi i)
      (fun i => if i < 1 then xr i * yr i - xi i * yi i else xr i) 1 =
      some (fun i => if i < 1 then xi i * yr i + xr i * yi i else xi i,
        fun i => if i < 1 then xr i * yr i - xi i * yi i else xr i) :=
    transform_one _ _
  show convolve_complexF 2 xr xi yr yi 1 = _
  rw [convolve_complexF]
  rw [if_neg (by norm_num [SIZE_MAX, sizeof_double])]
  simp only [h1, h2, h3]

/-- Evaluation of `fft_2signals` once the inner `transform` call is known
to succeed: the output is the two special bins followed by the split loop. -/
lemma fft_2signals_eval (s1 s2 X1r0 X1i0 X2r0 X2i0 : Nat → ℝ) (n : Nat)
    (Xr Xi : Nat → ℝ)
    (hT : transform (fun i => if i < n then s1 i else 0)
        (fun i => if i < n then s2 i else 0) n = some (Xr, Xi)) :
    fft_2signals s1 s2 X1r0 X1i0 X2r0 X2i0 n =
      some (loopN (packStep Xr Xi n) (n / 2 - 1)
        (Function.update (Function.update X1r0 0 (Xr 0)) (n / 2) (Xi (n / 2)),
         Function.update (Function.update X2r0 0 (Xi 0)) (n / 2) (Xi (n / 2)),
         Function.update (Function.update X1i0 0 0) (n / 2) 0,
         Function.update (Function.update X2i0 0 0) (n / 2) 0)) := by
  simp only [fft_2signals, hT]

/-- The DFT of the length-2 impulse `(1, 0)` has value `1` at bin 1. -/
lemma dft2_delta (f g : Nat → ℝ) (hf0 : f 0 = 1) (hf1 : f 1 = 0)
    (hg0 : g 0 = 0) (hg1 : g 1 = 0) : dft 2 (cval (f, g)) 1 = 1 := by
  have hrange : Finset.range 2 = {0, 1} := by decide
  have hx0 : cval (f, g) 0 = 1 := by
    rw [cval_mk]
    apply Complex.ext <;> simp [hf0, hg0]
  have hx1 : cval (f, g) 1 = 0 := by
    rw [cval_mk]
    apply Complex.ext <;> simp [hf1, hg1]
  have hw0 : wexp 2 (1 * 0) = 1 := by
    simp [wexp]
  rw [dft, hrange, Finset.sum_insert (by decide), Finset.sum_singleton,
    hx0, hx1, hw0]
  ring

/-- The round trip `inverse_transform ∘ transform`, divided by `n`,
restores the signal — on the radix-2 path or in the wrap-free Bluestein
regime `n ≤ 2^32`. -/
lemma round_trip (re im r1 i1 r2 i2 : Nat → ℝ) (n : Nat) (hn : 1 ≤ n)
    (hok : n ≤ 2 ^ 32 ∨ ∃ k, n = 2 ^ k)
    (ht : transform re im n = some (r1, i1))
    (hi : inverse_transform r1 i1 n = some (r2, i2)) :
    ∀ j, j < n → r2 j / (n : ℝ) = re j ∧ i2 j / (n : ℝ) = im j := by
  have hfwd := transform_dft re im n hn hok (r1, i1) ht
  simp only [inverse_transform] at hi
  cases hc : transform i1 r1 n with
  | none =>
    rw [hc] at hi
    exact absurd hi (by simp)
  | some P =>
    obtain ⟨a, b⟩ := P
    rw [hc] at hi
    obtain ⟨hb, ha⟩ := Prod.mk.injEq .. ▸ Option.some.inj hi
    subst hb
    subst ha
    have hinv := transform_dft i1 r1 n hn hok (a, b) hc
    intro j hj
    have h3 : cval (b, a) j = (n : ℂ) * cval (re, im) j := by
      have h1 : cval (b, a) j =
          Complex.I * (starRingEnd ℂ) (cval (a, b) j) := by
        rw [cval_mk, cval_mk, I_mul_conj_mk]
      rw [h1, hinv j hj,
        I_conj_dft n (cval (i1, r1)) (cval (r1, i1)) (fun t _ => rfl) j]
      exact idft_dft n hn (cval (re, im)) (cval (r1, i1)) hfwd j hj
    have hre : b j = (n : ℝ) * re j := by
      have h4 := congrArg Complex.re h3
      simpa [cval_mk, Complex.mul_re] using h4
    have him : a j = (n : ℝ) * im j := by
      have h4 := congrArg Complex.im h3
      simpa [cval_mk, Complex.mul_im] using h4
    have hn0 : (n : ℝ) ≠ 0 := Nat.cast_ne_zero.mpr (by omega)
    constructor
    · rw [hre]
      field_simp
    · rw [him]
      field_simp

/-- A concrete instance of `round_trip` at `n = 1`. -/
lemma round_trip_one :
    (12 : ℝ) / ((1 : Nat) : ℝ) = 12 ∧ (5 : ℝ) / ((1 : Nat) : ℝ) = 5 :=
  round_trip (fun _ => 12) (fun _ => 5) (fun _ => 12) (fun _ => 5)
    (fun _ => 12) (fun _ => 5) 1 (le_refl 1) (Or.inl (by norm_num))
    (transform_one _ _)
    (by simp only [inverse_transform, transform_one]) 0 (by omega)

/-- On success, `convolve_real` writes the naive real circular convolution
and `convolve_complex` the complex one, each sample rescaled by `1/n`
exactly once — on power-of-two lengths or in the wrap-free regime
`n ≤ 2^32`. -/
lemma convolve_correct (x y xr xi yr yi outr outi cr ci : Nat → ℝ) (n : Nat)
    (hn : 1 ≤ n) (hok : n ≤ 2 ^ 32 ∨ ∃ k, n = 2 ^ k)
    (hr : convolve_real x y n = some (outr, outi))
    (hc : convolve_complex xr xi yr yi n = some (cr, ci)) :
    (∀ k, k < n → outr k =
      ∑ t ∈ Finset.range n, x t * y ((n + k - t) % n)) ∧
    (∀ k, k < n → cval (cr, ci) k =
      circConv n (cval (xr, xi)) (cval (yr, yi)) k) := by
  have hgen : ∀ ar ai br bi u v,
      convolve_complex ar ai br bi n = some (u, v) →
      ∀ k, k < n →
        cval (u, v) k = circConv n (cval (ar, ai)) (cval (br, bi)) k :=
    fun ar ai br bi u v h =>
      convolve_complexF_spec 0 ar ai br bi u v n hn hok h
  constructor
  · intro k hk
    have h1 := hgen x (fun _ => 0) y (fun _ => 0) outr outi hr k hk
    have h2 : outr k =
        (circConv n (cval (x, fun _ => 0)) (cval (y, fun _ => 0)) k).re := by
      rw [← h1]
      rfl
    rw [h2, circConv, Complex.re_sum]
    refine Finset.sum_congr rfl fun t _ => ?_
    simp [cval_mk, Complex.mul_re]
  · exact fun k hk => hgen xr xi yr yi cr ci hc k hk

/-- A concrete instance of `convolve_correct` at `n = 1`. -/
lemma convolve_correct_one :
    ((2 : ℝ) * 3 - 0 * 0) / ((1 : Nat) : ℝ) =
      (∑ t ∈ Finset.range 1, (2 : ℝ) * 3) ∧
    cval (fun i : Nat => if i < 1 then
        (if i < 1 then (2 : ℝ) * 3 - 0 * 0 else 2) / ((1 : Nat) : ℝ) else 0,
      fun i : Nat => if i < 1 then
        (if i < 1 then (0 : ℝ) * 3 + 2 * 0 else 0) / ((1 : Nat) : ℝ)
        else 0) 0 =
      circConv 1 (cval (fun _ => 2, fun _ => 0))
        (cval (fun _ => 3, fun _ => 0)) 0 := by
  have hcc := convolve_complex_one (fun _ => (2 : ℝ)) (fun _ => (0 : ℝ))
    (fun _ => (3 : ℝ)) (fun _ => (0 : ℝ))
  have h := convolve_correct (fun _ => 2) (fun _ => 3) (fun _ => 2)
    (fun _ => 0) (fun _ => 3) (fun _ => 0)
    (fun i : Nat => if i < 1 then
      (if i < 1 then (2 : ℝ) * 3 - 0 * 0 else 2) / ((1 : Nat) : ℝ) else 0)
    (fun i : Nat => if i < 1 then
      (if i < 1 then (0 : ℝ) * 3 + 2 * 0 else 0) / ((1 : Nat) : ℝ) else 0)
    (fun i : Nat => if i < 1 then
      (if i < 1 then (2 : ℝ) * 3 - 0 * 0 else 2) / ((1 : Nat) : ℝ) else 0)
    (fun i : Nat => if i < 1 then
      (if i < 1 then (0 : ℝ) * 3 + 2 * 0 else 0) / ((1 : Nat) : ℝ) else 0)
    1 (le_refl 1) (Or.inl (by norm_num)) hcc hcc
  exact ⟨h.1 0 (by omega), h.2 0 (by omega)⟩

/-! ### Reachability of the wrapping regime

The 64-bit product `i * i` in the chirp tables wraps as soon as some
table index reaches `2^32`, i.e. for every signal length `n > 2^32`.
The lemmas below show that such lengths are fully reachable: for any
non-power-of-two `n ≤ 2^59` all guards pass and `transform` (and hence
`convolve_complex`/`convolve_real`) succeeds. -/

lemma transform_bluestein_reach (re im : Nat → ℝ) (n : Nat) (hn : 1 ≤ n)
    (hbound : n ≤ 2 ^ 59) (hnp : ¬ ∃ k, n = 2 ^ k) :
    ∃ s, transform re im n = some s := by
  have hn2 : n ≤ 2 ^ 59 - 1 := by
    rcases Nat.lt_or_ge n (2 ^ 59) with h | h
    · omega
    · exact absurd ⟨59, by omega⟩ hnp
  suffices hne : transform_bluesteinF 1 re im n ≠ none by
    have h1 : transform re im n = transform_bluesteinF 1 re im n :=
      transformF_not_pow2 1 re im n hn hnp
    rw [h1]
    exact Option.ne_none_iff_exists'.mp hne
  rw [transform_bluesteinF]
  have hg1 : ¬ n > (SIZE_MAX - 1) / 2 := by
    simp only [SIZE_MAX]
    omega
  rw [if_neg hg1]
  cases hfm : find_m (n * 2 + 1) with
  | none =>
    rw [find_m_none_iff] at hfm
    omega
  | some m =>
    obtain ⟨hmp, hmge, hmmin⟩ := find_m_some_spec (n * 2 + 1) m hfm
    have hm60 : m ≤ 2 ^ 60 := hmmin 60 (by omega)
    have hgn : ¬ SIZE_MAX / sizeof_double < n := by
      simp only [SIZE_MAX, sizeof_double]
      omega
    have hgm : ¬ SIZE_MAX / sizeof_double < m := by
      simp only [SIZE_MAX, sizeof_double]
      omega
    simp only [hfm]
    rw [if_neg (fun hcon => hcon.elim hgn hgm)]
    obtain ⟨u, v, hconv, _⟩ := convolve_complexF_pow2_spec 0
      (fun i => if i < n then re i * chirp_cos n i + im i * chirp_sin n i
        else 0)
      (fun i => if i < n then -(re i) * chirp_sin n i + im i * chirp_cos n i
        else 0)
      (bluestein_b (chirp_cos n) m n) (bluestein_b (chirp_sin n) m n) m
      hmp hgm
    simp only [hconv]
    exact Option.some_ne_none _

lemma convolve_complex_reach (xr xi yr yi : Nat → ℝ) (n : Nat) (hn : 1 ≤ n)
    (hbound : n ≤ 2 ^ 59) (hnp : ¬ ∃ k, n = 2 ^ k) :
    ∃ s, convolve_complex xr xi yr yi n = some s := by
  suffices hne : convolve_complexF 2 xr xi yr yi n ≠ none from
    Option.ne_none_iff_exists'.mp hne
  rw [convolve_complexF]
  have hgn : ¬ SIZE_MAX / sizeof_double < n := by
    simp only [SIZE_MAX, sizeof_double]
    omega
  rw [if_neg hgn]
  obtain ⟨s1, hs1⟩ := transform_bluestein_reach xr xi n hn hbound hnp
  obtain ⟨xr1, xi1⟩ := s1
  have hs1F : transformF 2 xr xi n = some (xr1, xi1) := hs1
  obtain ⟨s2, hs2⟩ := transform_bluestein_reach yr yi n hn hbound hnp
  obtain ⟨yr1, yi1⟩ := s2
  have hs2F : transformF 2 yr yi n = some (yr1, yi1) := hs2
  obtain ⟨s3, hs3⟩ := transform_bluestein_reach
    (fun i => if i < n then xi1 i * yr1 i + xr1 i * yi1 i else xi1 i)
    (fun i => if i < n then xr1 i * yr1 i - xi1 i * yi1 i else xr1 i)
    n hn hbound hnp
  obtain ⟨b1, b2⟩ := s3
  have hs3F : transformF 2
      (fun i => if i < n then xi1 i * yr1 i + xr1 i * yi1 i else xi1 i)
      (fun i => if i < n then xr1 i * yr1 i - xi1 i * yi1 i else xr1 i) n =
      some (b1, b2) := hs3
  simp only [hs1F, hs2F, hs3F]
  exact Option.some_ne_none _

/-- Claim C2: the claim asserts the exact round trip
`inverse_transform(transform(x)) / n = x` for every `n ≥ 1`. On the
radix-2 path and in the wrap-free regime `n ≤ 2^32` this holds
(`round_trip` above), but the program falsifies it beyond: at the
reachable non-power-of-two length `n = 2^32 + 2` every guard passes and
`transform` succeeds, yet the 64-bit product `i * i` in the chirp tables
wraps at index `i = 2^32 + 1`, so the table entry the program computes
(`chirp_cos`) differs from the exact-integer-arithmetic chirp value the
Bluestein algorithm requires at that length (`chirp_cos_spec`): the
transform no longer computes the DFT there, and the round trip is lost. -/
theorem claim_C2 :
    (1 ≤ (4294967298 : Nat) ∧ (4294967298 : Nat) ≤ 2 ^ 59 ∧
      ¬ ∃ k, (4294967298 : Nat) = 2 ^ k) ∧
    (∃ s, transform (fun _ => 0) (fun _ => 0) 4294967298 = some s) ∧
    chirp_cos 4294967298 4294967297 ≠ chirp_cos_spec 4294967298 4294967297 := by
  have hnp : ¬ ∃ k, (4294967298 : Nat) = 2 ^ k :=
    ne_two_pow_of_bounds 4294967298 32 (by norm_num) (by norm_num)
  refine ⟨⟨by norm_num, by norm_num, hnp⟩,
    transform_bluestein_reach (fun _ => 0) (fun _ => 0) 4294967298
      (by norm_num) (by norm_num) hnp, ?_⟩
  have e1 : chirp_cos 4294967298 4294967297 =
      Real.cos (Real.pi * (8589934593 : ℝ) / (4294967298 : ℝ)) := by
    simp only [chirp_cos]
    norm_num
  have e2 : chirp_cos_spec 4294967298 4294967297 =
      Real.cos (Real.pi * (1 : ℝ) / (4294967298 : ℝ)) := by
    simp only [chirp_cos_spec]
    norm_num
  rw [e1, e2]
  have hrw : Real.pi * (8589934593 : ℝ) / (4294967298 : ℝ) =
      2 * Real.pi - Real.pi * 3 / 4294967298 := by
    ring
  rw [hrw, Real.cos_two_pi_sub]
  have hpi := Real.pi_pos
  have hmem1 : Real.pi * 1 / 4294967298 ∈ Set.Icc 0 Real.pi :=
    ⟨by positivity, by linarith⟩
  have hmem3 : Real.pi * 3 / 4294967298 ∈ Set.Icc 0 Real.pi :=
    ⟨by positivity, by linarith⟩
  have hlt : Real.pi * 1 / 4294967298 < Real.pi * 3 / 4294967298 := by
    linarith
  exact (Real.strictAntiOn_cos hmem1 hmem3 hlt).ne

/-- Claim C3: the claim asserts the exact circular-convolution identity
for `convolve_real`/`convolve_complex` at every `n ≥ 1` including
non-powers of two. On power-of-two lengths and in the wrap-free regime
`n ≤ 2^32` this holds (`convolve_correct` above), but beyond it the
inner transforms take the Bluestein path with wrapped chirp tables: at
the reachable non-power-of-two length `n = 2^32 + 2` every guard passes
and `convolve_real` succeeds, yet the chirp sine table the program
computes (`chirp_sin`) differs at index `i = 2^32 + 1` from the
exact-integer-arithmetic value the algorithm requires (`chirp_sin_spec`),
so the convolution identity is not met by the program there. -/
theorem claim_C3 :
    (1 ≤ (4294967298 : Nat) ∧ ¬ ∃ k, (4294967298 : Nat) = 2 ^ k) ∧
    (∃ s, convolve_real (fun _ => 0) (fun _ => 0) 4294967298 = some s) ∧
    chirp_sin 4294967298 4294967297 ≠ chirp_sin_spec 4294967298 4294967297 := by
  have hnp : ¬ ∃ k, (4294967298 : Nat) = 2 ^ k :=
    ne_two_pow_of_bounds 4294967298 32 (by norm_num) (by norm_num)
  refine ⟨⟨by norm_num, hnp⟩,
    convolve_complex_reach (fun _ => 0) (fun _ => 0) (fun _ => 0)
      (fun _ => 0) 4294967298 (by norm_num) (by norm_num) hnp, ?_⟩
  have e1 : chirp_sin 4294967298 4294967297 =
      Real.sin (Real.pi * (8589934593 : ℝ) / (4294967298 : ℝ)) := by
    simp only [chirp_sin]
    norm_num
  have e2 : chirp_sin_spec 4294967298 4294967297 =
      Real.sin (Real.pi * (1 : ℝ) / (4294967298 : ℝ)) := by
    simp only [chirp_sin_spec]
    norm_num
  rw [e1, e2]
  have hrw : Real.pi * (8589934593 : ℝ) / (4294967298 : ℝ) =
      2 * Real.pi - Real.pi * 3 / 4294967298 := by
    ring
  rw [hrw, Real.sin_two_pi_sub]
  have hpi := Real.pi_pos
  have hpos3 : 0 < Real.sin (Real.pi * 3 / 4294967298) :=
    Real.sin_pos_of_pos_of_lt_pi (by positivity) (by linarith)
  have hpos1 : 0 < Real.sin (Real.pi * 1 / 4294967298) :=
    Real.sin_pos_of_pos_of_lt_pi (by positivity) (by linarith)
  intro heq
  rw [← heq] at hpos1
  linarith

/-- Claim C1: `fft_2signals` is claimed to agree bin-for-bin with the two
independent `transform`s, including the special bins `0` and `n/2`; this
is refuted by the concrete run below. At `n = 2` with `s1` the impulse
`(1, 0)` and `s2 = 0`, `fft_2signals` succeeds and leaves `0` in
`X1_real[n/2] = X1_real[1]` (the store `X1_real[n/2] = X_imag[n/2];`
reads the imaginary packed bin where the split formula requires the real
one, `X_real[n/2]`), while the independent `transform` of `s1` puts `1`
in its real bin `1`. -/
theorem claim_C1 :
    ∃ out r1 i1,
      fft_2signals (fun i => if i = 0 then (1 : ℝ) else 0) (fun _ => 0)
          (fun _ => 0) (fun _ => 0) (fun _ => 0) (fun _ => 0) 2 = some out ∧
      transform (fun i => if i = 0 then (1 : ℝ) else 0) (fun _ => 0) 2 =
        some (r1, i1) ∧
      out.1 1 = 0 ∧ r1 1 = 1 := by
  have hg : ¬ SIZE_MAX / sizeof_double < 2 / 2 := by
    norm_num [SIZE_MAX, sizeof_double]
  obtain ⟨Xr, Xi, hT, hval⟩ := transformF_pow2_spec 1
    (fun i => if i < 2 then (fun i => if i = 0 then (1 : ℝ) else 0) i else 0)
    (fun i => if i < 2 then (fun _ : Nat => (0 : ℝ)) i else 0) 2 ⟨1, rfl⟩ hg
  obtain ⟨r1, i1, hT2, hval2⟩ := transformF_pow2_spec 1
    (fun i => if i = 0 then (1 : ℝ) else 0) (fun _ => 0) 2 ⟨1, rfl⟩ hg
  have heq := fft_2signals_eval (fun i => if i = 0 then (1 : ℝ) else 0)
    (fun _ => 0) (fun _ => 0) (fun _ => 0) (fun _ => 0) (fun _ => 0) 2
    Xr Xi hT
  have hXi1 : Xi 1 = 0 := by
    have h1 := hval 1 (by omega)
    rw [dft2_delta
      (fun i => if i < 2 then (fun i => if i = 0 then (1 : ℝ) else 0) i
        else 0)
      (fun i => if i < 2 then (fun _ : Nat => (0 : ℝ)) i else 0)
      (by norm_num) (by norm_num) (by norm_num) (by norm_num)] at h1
    have h2 := congrArg Complex.im h1
    simpa [cval_mk] using h2
  have hr11 : r1 1 = 1 := by
    have h1 := hval2 1 (by omega)
    rw [dft2_delta (fun i => if i = 0 then (1 : ℝ) else 0) (fun _ => 0)
      (by norm_num) (by norm_num) (by norm_num) (by norm_num)] at h1
    have h2 := congrArg Complex.re h1
    simpa [cval_mk] using h2
  refine ⟨_, r1, i1, heq, hT2, ?_, hr11⟩
  show (loopN (packStep Xr Xi 2) (2 / 2 - 1) _).1 1 = 0
  norm_num [loopN, hXi1]

end Fft
